import Mathlib

/-!
# Verification of the Open3D slab hash table (`HashmapCUDA.h`)

This file is a shallow embedding of the lock-free GPU hash table in
`src/Open3D/Core/Hashmap/HashmapCUDA.h` together with proofs about its
single-request (sequential) semantics: each batch request is processed to
completion, one at a time, exactly as the warp-cooperative protocol resolves
it when no other request races with it on the same slots.  Machine integers
are modelled as `Nat` with explicit `% 2^w` where overflow matters; byte
buffers are `List Nat`; internal pointers (`ptr_t`) are `Nat` handles with
the `EMPTY_PAIR_PTR` / `EMPTY_SLAB_PTR` / `NULL_ITERATOR` sentinels rendered
as `Option.none`.

The two fixed-block allocators (`InternalMemoryManager.h`,
`InternalNodeManager.h`) and the body of `HashmapCUDA::ExtractIterators` are
not part of the sources; they are modelled from the spec where marked.
-/

set_option maxRecDepth 10000

namespace SlabHash

open scoped List

/-- Byte strings (each entry one byte of a key / value / record). -/
abbrev Bytes := List Nat

/-! ## Hash function (source: `DefaultHash::operator()` ll. 64-80) -/

/-- `2^64`, the modulus of `uint64_t` arithmetic. -/
def U64 : Nat := 2 ^ 64

/-- `2^32`, the modulus of `uint32_t` arithmetic. -/
def U32 : Nat := 2 ^ 32

/-- The `i`-th 4-byte word of a key, read little-endian as by
`(int32_t*)key_ptr` (`cast_key_ptr[i]`); bytes past the end read as 0. -/
def word32At (key : Bytes) (i : Nat) : Nat :=
  (key.getD (4 * i) 0 + 256 * key.getD (4 * i + 1) 0 +
    65536 * key.getD (4 * i + 2) 0 + 16777216 * key.getD (4 * i + 3) 0) % U32

/-- Conversion of an `int32_t` bit pattern to `uint64_t` (sign extension),
as happens in `hash ^= cast_key_ptr[i]`. -/
def sext32to64 (w : Nat) : Nat :=
  if w < 2 ^ 31 then w else w + (U64 - U32)

/-- One iteration of the `DefaultHash` loop:
`hash ^= cast_key_ptr[i]; hash *= 1099511628211` in `uint64_t`. -/
def fnvStep (h w : Nat) : Nat :=
  ((h ^^^ sext32to64 w) * 1099511628211) % U64

/-- `DefaultHash::operator()`: iterate `fnvStep` over the first
`key_size_ / sizeof(int)` words, starting from the 64-bit offset basis. -/
def defaultHash (keySize : Nat) (key : Bytes) : Nat :=
  (List.range (keySize / 4)).foldl (fun h i => fnvStep h (word32At key i))
    14695981039346656037

/-! ## Data model -/

/-- `Slab` (source ll. 58-62): 31 kv-pair pointer slots plus one next-slab
pointer.  `none` is the `EMPTY_PAIR_PTR` / `EMPTY_SLAB_PTR` sentinel
(`0xFFFFFFFF`, the value `cudaMemset(…, 0xFF, …)` initializes slabs to). -/
structure Slab where
  slots : List (Option Nat)
  next : Option Nat
deriving DecidableEq

/-- A freshly initialized slab: every unit is the empty sentinel. -/
def emptySlab : Slab := ⟨List.replicate 31 none, none⟩

/-- The whole table state: construction parameters, the bucket head-slab
array, the pool of chained slabs handed out by the slab allocator
(handle = index), and the pair-record pool (handle = index; `none` = free
block, `some r` = allocated record holding bytes `r`). -/
structure HState where
  numBuckets : Nat
  dsizeKey : Nat
  dsizeValue : Nat
  buckets : List Slab
  heap : List Slab
  records : List (Option Bytes)
deriving DecidableEq

/-- `HashmapCUDA`'s constructor (ll. 229-251): `num_buckets` head slabs all
memset to `0xFF` (every slot empty), no chained slabs yet, and a pair pool
of `max_keyvalue_count` free blocks. -/
def freshTable (nb cap dk dv : Nat) : HState :=
  ⟨nb, dk, dv, List.replicate nb emptySlab, [], List.replicate cap none⟩

/-- `ComputeBucket` (ll. 356-359): `hash_fn_(key) % num_buckets_`. -/
def computeBucket (st : HState) (key : Bytes) : Nat :=
  defaultHash st.dsizeKey key % st.numBuckets

/-- The cursor of the traversal loops: `curr_slab_ptr`, either the
`HEAD_SLAB_PTR` sentinel (the bucket's head slab) or a slab-allocator
handle. -/
inductive Cursor where
  | head
  | node (h : Nat)
deriving DecidableEq

/-- Read the slab the cursor points to (`get_unit_ptr_from_list_head` /
`get_unit_ptr_from_list_nodes`, the whole 32-unit read of ll. 438-443). -/
def readSlab (st : HState) (b : Nat) : Cursor → Option Slab
  | .head => st.buckets[b]?
  | .node h => st.heap[h]?

/-- Replace the slab the cursor points to. -/
def setSlab (st : HState) (b : Nat) : Cursor → Slab → HState
  | .head, s => { st with buckets := st.buckets.set b s }
  | .node h, s => { st with heap := st.heap.set h s }

/-- Write data slot `i` of the slab at the cursor (the successful
`atomicCAS` on a kv-pair unit). -/
def writeSlot (st : HState) (b : Nat) (c : Cursor) (i : Nat)
    (v : Option Nat) : HState :=
  match readSlab st b c with
  | none => st
  | some s => setSlab st b c { s with slots := s.slots.set i v }

/-- Write the next-slab unit of the slab at the cursor (the successful
`atomicCAS` on lane `NEXT_SLAB_PTR_LANE`). -/
def setNext (st : HState) (b : Nat) (c : Cursor) (nx : Option Nat) : HState :=
  match readSlab st b c with
  | none => st
  | some s => setSlab st b c { s with next := nx }

/-! ## Allocators -/

/-- Modelled from the spec: `InternalMemoryManagerContext::Allocate` of the
Pair Store Allocator (`InternalMemoryManager.h` is not among the sources).
A lock-free fixed-block allocator: claim a free block of the fixed pool and
write the serialized record into it (the Insert protocol writes the bytes
right after `Allocate`, ll. 505-517); exhaustion (no free block) is a
terminal allocation failure surfaced to the caller. -/
def allocRecord (st : HState) (bytes : Bytes) : Option (HState × Nat) :=
  match st.records.findIdx? Option.isNone with
  | none => none
  | some i => some ({ st with records := st.records.set i (some bytes) }, i)

/-- Modelled from the spec: `InternalMemoryManagerContext::Free`: return the
block to the pool. -/
def freeRecord (st : HState) (p : Nat) : HState :=
  { st with records := st.records.set p none }

/-- Modelled from the spec: `InternalNodeManagerContext::WarpAllocate`
(`InternalNodeManager.h` is not among the sources): hand out a fresh
all-empty slab node.  This variant is the pool far from exhaustion (its
fixed capacity is not visible in the sources), where allocation always
succeeds; `allocSlabBounded` below models the same allocator with its
capacity visible, including the exhaustion error path. -/
def allocSlab (st : HState) : HState × Nat :=
  ({ st with heap := st.heap ++ [emptySlab] }, st.heap.length)

/-- Modelled from the spec: `InternalNodeManagerContext::WarpAllocate` over
a pool of `cap` slabs.  "Exhaustion (no free slab anywhere) is a terminal
allocation failure the caller must detect (returns a sentinel handle)":
with the pool full the sentinel `EMPTY_SLAB_PTR` (`none`) is returned and
no slab is handed out. -/
def allocSlabBounded (cap : Nat) (st : HState) : HState × Option Nat :=
  if st.heap.length < cap then
    ({ st with heap := st.heap ++ [emptySlab] }, some st.heap.length)
  else (st, none)

/-! ## Slot predicates (`WarpFindKey` / `WarpFindEmpty`, ll. 382-401) -/

/-- Whether a data slot holds a pointer to a record whose first
`dsize_key_` bytes equal the query key's (`cmp(extract_ptr(ptr), key_ptr,
dsize_key_)`).  The warp broadcast (`WarpSyncKey`) copies the query key in
whole 4-byte words, so the comparison sees exactly the query's key bytes
whenever `4 ∣ dsize_key` (the caller contract assumed throughout). -/
def slotMatches (st : HState) (key : Bytes) : Option Nat → Bool
  | none => false
  | some p =>
    match st.records.getD p none with
    | none => false
    | some r => decide (r.take st.dsizeKey = key.take st.dsizeKey)

/-- `WarpFindKey`: index of the first lane whose slot matches the key
(`__ffs(__ballot_sync(PAIR_PTR_LANES_MASK, is_lane_found))`). -/
def findKeyIdx (st : HState) (key : Bytes) (slots : List (Option Nat)) :
    Option Nat :=
  slots.findIdx? (slotMatches st key)

/-- `WarpFindEmpty`: index of the first lane whose slot is the empty
sentinel. -/
def findEmptyIdx (slots : List (Option Nat)) : Option Nat :=
  slots.findIdx? Option.isNone

/-! ## Core operations (sequential semantics of the warp loops)

Each loop takes explicit fuel; the wrappers supply enough fuel for any
well-formed state (chains are acyclic, see `WF` below), and fuel
sufficiency is proved, not assumed. -/

/-- `HashmapCUDAContext::Search` (ll. 413-483), one request. -/
def searchLoop (st : HState) (key : Bytes) (b : Nat) :
    Cursor → Nat → Option Nat × Bool
  | _, 0 => (none, false)
  | c, fuel + 1 =>
    match readSlab st b c with
    | none => (none, false)
    | some s =>
      match findKeyIdx st key s.slots with
      | some i => (s.slots.getD i none, true)
      | none =>
        match s.next with
        | none => (none, false)
        | some nx => searchLoop st key b (.node nx) fuel

/-- `Search` with explicit fuel. -/
def searchOneWith (st : HState) (key : Bytes) (fuel : Nat) :
    Option Nat × Bool :=
  searchLoop st key (computeBucket st key) .head fuel

/-- One `Search` request processed to completion. -/
def searchOne (st : HState) (key : Bytes) : Option Nat × Bool :=
  searchOneWith st key (st.heap.length + 1)

/-- The loop of `HashmapCUDAContext::Insert` (ll. 519-622), one request,
after the pair record `p` has been preallocated and filled.  Branch 1:
key found → free the preallocated record, fail.  Branch 2: empty slot →
CAS the record pointer in (the CAS succeeds in the one-request semantics).
Branch 3: advance to the next slab, allocating and linking a fresh one at
the chain tail. -/
def insertLoop (st : HState) (key : Bytes) (p b : Nat) :
    Cursor → Nat → HState × Option Nat × Bool
  | _, 0 => (st, none, false)
  | c, fuel + 1 =>
    match readSlab st b c with
    | none => (st, none, false)
    | some s =>
      match findKeyIdx st key s.slots with
      | some _ => (freeRecord st p, none, false)
      | none =>
        match findEmptyIdx s.slots with
        | some i => (writeSlot st b c i (some p), some p, true)
        | none =>
          match s.next with
          | some nx => insertLoop st key p b (.node nx) fuel
          | none =>
            let a := allocSlab st
            insertLoop (setNext a.1 b c (some a.2)) key p b c fuel

/-- `Insert` with explicit fuel: eagerly allocate a pair record, write
`dsize_key_` key bytes followed by `dsize_value_` value bytes into it
(ll. 503-517), then run the loop; allocation exhaustion yields the
`NULL_ITERATOR` sentinel and `success = false`. -/
def insertOneWith (st : HState) (key value : Bytes) (fuel : Nat) :
    HState × Option Nat × Bool :=
  match allocRecord st (key.take st.dsizeKey ++ value.take st.dsizeValue) with
  | none => (st, none, false)
  | some (st1, p) => insertLoop st1 key p (computeBucket st key) .head fuel

/-- One `Insert` request processed to completion. -/
def insertOne (st : HState) (key value : Bytes) : HState × Option Nat × Bool :=
  insertOneWith st key value (st.heap.length + 3)

/-- `HashmapCUDAContext::Remove` (ll. 627-699), one request.  On a key
match the CAS clears the slot (it succeeds in the one-request semantics)
and the record is freed. -/
def removeLoop (st : HState) (key : Bytes) (b : Nat) :
    Cursor → Nat → HState × Bool
  | _, 0 => (st, false)
  | c, fuel + 1 =>
    match readSlab st b c with
    | none => (st, false)
    | some s =>
      match findKeyIdx st key s.slots with
      | some i =>
        match s.slots.getD i none with
        | some p => (freeRecord (writeSlot st b c i none) p, true)
        | none => (st, false)
      | none =>
        match s.next with
        | none => (st, false)
        | some nx => removeLoop st key b (.node nx) fuel

/-- `Remove` with explicit fuel. -/
def removeOneWith (st : HState) (key : Bytes) (fuel : Nat) : HState × Bool :=
  removeLoop st key (computeBucket st key) .head fuel

/-- One `Remove` request processed to completion. -/
def removeOne (st : HState) (key : Bytes) : HState × Bool :=
  removeOneWith st key (st.heap.length + 1)

/-! ## Batch driver (`InsertKernel` / `SearchKernel` / `RemoveKernel` +
host wrappers, ll. 255-284 and 701-809): every one of the `N` requests is
resolved and its iterator/mask written. -/

/-- Batch `Insert`: the state threads through the requests; one
(iterator, mask) output per request. -/
def insertBatch (st : HState) :
    List (Bytes × Bytes) → HState × List (Option Nat × Bool)
  | [] => (st, [])
  | (k, v) :: rest =>
    let r := insertOne st k v
    let rr := insertBatch r.1 rest
    (rr.1, r.2 :: rr.2)

/-- Batch `Search`: one (iterator, mask) output per request (the kernel
does not mutate the table). -/
def searchBatch (st : HState) (keys : List Bytes) : List (Option Nat × Bool) :=
  keys.map (searchOne st)

/-- Batch `Remove`: one mask output per request. -/
def removeBatch (st : HState) : List Bytes → HState × List Bool
  | [] => (st, [])
  | k :: rest =>
    let r := removeOne st k
    let rr := removeBatch r.1 rest
    (rr.1, r.2 :: rr.2)

/-- Modelled from the spec: `HashmapCUDA::ExtractIterators` (declared at
ll. 182-185, kernel body not among the sources): read back an iterator's
key bytes and value bytes from its pair record. -/
def extractIterator (st : HState) (p : Nat) : Bytes × Bytes :=
  match st.records.getD p none with
  | none => ([], [])
  | some r => (r.take st.dsizeKey, (r.drop st.dsizeKey).take st.dsizeValue)

/-! ## Diagnostics (`CountElemsPerBucketKernel` ll. 866-903,
`ComputeLoadFactor` ll. 307-321) -/

/-- Occupied data slots of one slab: `__popc(__ballot_sync(
PAIR_PTR_LANES_MASK, src_unit_data != EMPTY_PAIR_PTR))` (the mask keeps
the 31 kv lanes; the next-pointer lane is not counted). -/
def slabCount (s : Slab) : Nat := s.slots.countP Option.isSome

/-- Walking one bucket chain counting occupied slots. -/
def chainCount (st : HState) (b : Nat) : Cursor → Nat → Nat
  | _, 0 => 0
  | c, fuel + 1 =>
    match readSlab st b c with
    | none => 0
    | some s =>
      slabCount s +
        (match s.next with
         | none => 0
         | some nx => chainCount st b (.node nx) fuel)

/-- `CountElemsPerBucket`: per-bucket occupied-slot counts. -/
def countElemsPerBucket (st : HState) : List Nat :=
  (List.range st.numBuckets).map
    (fun b => chainCount st b .head (st.heap.length + 1))

/-- `ComputeLoadFactor` (ll. 307-321): the total of the per-bucket counts
divided by `total_slabs_stored * WARP_WIDTH`, where `total_slabs_stored`
accumulates the allocated chained slabs (modelled from the spec:
`CountSlabsPerSuperblock` is in the missing node manager; its total is the
number of slabs handed out) starting from `num_buckets_`, and
`WARP_WIDTH = 32` (forced by `static_assert(sizeof(Slab) == WARP_WIDTH *
sizeof(ptr_t))`, l. 333).  The exact `double` division is modelled as the
exact rational. -/
def computeLoadFactor (st : HState) : ℚ :=
  ((countElemsPerBucket st).sum : ℚ) /
    (((st.numBuckets + st.heap.length) * 32 : Nat) : ℚ)

/-! ## `WarpSyncKey` write footprint (ll. 361-369) -/

/-- The byte offsets of the per-lane `src_key` buffer
(`uint8_t src_key[MAX_KEY_BYTESIZE]`) written by `WarpSyncKey`: the
broadcast copies `dsize_key_ / sizeof(int)` whole 4-byte words, so bytes
`0 … 4*(dsize_key/4) - 1`. -/
def warpSyncKeyWrites (dsizeKey : Nat) : List Nat :=
  List.range (4 * (dsizeKey / 4))

/-- `MAX_KEY_BYTESIZE` (l. 37), the size of every `src_key` buffer. -/
def MAX_KEY_BYTESIZE : Nat := 32

/-! ## Chains and well-formedness -/

/-- The bucket chain starting at a cursor terminates (reaches a slab whose
next pointer is the empty sentinel) within `fuel` slabs. -/
def chainClosed (st : HState) (b : Nat) : Cursor → Nat → Bool
  | _, 0 => false
  | c, fuel + 1 =>
    match readSlab st b c with
    | none => false
    | some s =>
      match s.next with
      | none => true
      | some nx => chainClosed st b (.node nx) fuel

/-- The slabs visited by the chain traversal starting at a cursor. -/
def chainSlabs (st : HState) (b : Nat) : Cursor → Nat → List Slab
  | _, 0 => []
  | c, fuel + 1 =>
    match readSlab st b c with
    | none => []
    | some s =>
      s :: (match s.next with
            | none => []
            | some nx => chainSlabs st b (.node nx) fuel)

/-- The heap handles of the non-head slabs visited by the chain traversal. -/
def chainNodes (st : HState) (b : Nat) : Cursor → Nat → List Nat
  | _, 0 => []
  | c, fuel + 1 =>
    match readSlab st b c with
    | none => []
    | some s =>
      (match c with | .head => [] | .node h => [h]) ++
        (match s.next with
         | none => []
         | some nx => chainNodes st b (.node nx) fuel)

/-- Every slab of the table: the bucket heads and the allocated chain
nodes. -/
def allSlabs (st : HState) : List Slab := st.buckets ++ st.heap

/-- The record pointers held by one slab's occupied data slots. -/
def slabPtrs (s : Slab) : List Nat := s.slots.filterMap id

/-- The record pointers held by the occupied data slots of a slab list. -/
def ptrsOf (l : List Slab) : List Nat := (l.map slabPtrs).flatten

/-- All record pointers held by occupied data slots anywhere in the
table. -/
def occupiedPtrs (st : HState) : List Nat :=
  ptrsOf st.buckets ++ ptrsOf st.heap

/-- The bytes of the record behind a handle (empty if unallocated). -/
def recordBytes (st : HState) (p : Nat) : Bytes :=
  (st.records.getD p none).getD []

/-- The key bytes referenced by each occupied data slot of the table. -/
def slotKeys (st : HState) : List Bytes :=
  (occupiedPtrs st).map (fun p => (recordBytes st p).take st.dsizeKey)

/-- The record behind `p` is allocated and has the full
`dsize_key + dsize_value` serialized length. -/
def recLenOk (st : HState) (p : Nat) : Bool :=
  match st.records.getD p none with
  | none => false
  | some r => decide (r.length = st.dsizeKey + st.dsizeValue)

/-- Structural well-formedness of a table state: positive bucket count, the
head array has one slab per bucket, every slab has 31 data slots, every
bucket chain is finite (acyclic), every occupied slot references an
allocated full-length record, and no record is referenced by two slots. -/
structure WF (st : HState) : Prop where
  buckets_pos : 0 < st.numBuckets
  buckets_len : st.buckets.length = st.numBuckets
  slots_len : ∀ s ∈ allSlabs st, s.slots.length = 31
  closed : ∀ b, b < st.numBuckets →
    chainClosed st b .head (st.heap.length + 1) = true
  ptrs_lt : ∀ p ∈ occupiedPtrs st, p < st.records.length
  ptrs_ok : ∀ p ∈ occupiedPtrs st, recLenOk st p = true
  ptrs_nodup : (occupiedPtrs st).Nodup

/-! ## Scenario states and derived definitions used by the theorems -/

/-- The relation between the state before a successful insertion of a fresh
key and the state after it: the record pool is untouched, the preallocated
pointer `p` joins the occupied slots (and nothing else changes in the
occupancy multiset), at most one slab is allocated, and the structural
invariants carry over. -/
structure InsertShape (st st' : HState) (p : Nat) : Prop where
  recs : st'.records = st.records
  nb : st'.numBuckets = st.numBuckets
  dk : st'.dsizeKey = st.dsizeKey
  dv : st'.dsizeValue = st.dsizeValue
  blen : st'.buckets.length = st.buckets.length
  hlen_ge : st.heap.length ≤ st'.heap.length
  hlen_le : st'.heap.length ≤ st.heap.length + 1
  occ : occupiedPtrs st' ~ p :: occupiedPtrs st
  slots31 : (∀ s ∈ allSlabs st, s.slots.length = 31) →
    ∀ s' ∈ allSlabs st', s'.slots.length = 31
  closedAll : (∀ b', b' < st.numBuckets →
      chainClosed st b' .head (st.heap.length + 1) = true) →
    ∀ b', b' < st.numBuckets →
      chainClosed st' b' .head (st'.heap.length + 1) = true

/-- The key-uniqueness invariant: no two occupied data slots in the whole
table reference pair records with equal key bytes. -/
def keyUnique (st : HState) : Prop := (slotKeys st).Nodup

instance keyUnique_decidable (st : HState) : Decidable (keyUnique st) :=
  List.nodupDecidable _

/-- Invariant carried through a batch of insertions of distinct fresh keys
into a table with construction parameters `nb`, `cap`, `dk`, `dv`:
structural well-formedness, fixed parameters, the pair pool holds exactly
one allocated record per inserted key, and the multiset of stored keys is
exactly the multiset of inserted keys. -/
structure C1Inv (st : HState) (nb cap dk dv : Nat)
    (inserted : List Bytes) : Prop where
  wf : WF st
  hnb : st.numBuckets = nb
  hdk : st.dsizeKey = dk
  hdv : st.dsizeValue = dv
  hcap : st.records.length = cap
  hcount : st.records.countP Option.isSome = inserted.length
  hkeys : slotKeys st ~ inserted

/-- A concrete three-key batch used to witness C1. -/
def c1Pairs : List (Bytes × Bytes) :=
  [([1, 0, 0, 0], [10, 0, 0, 0]),
   ([2, 0, 0, 0], [20, 0, 0, 0]),
   ([3, 0, 0, 0], [30, 0, 0, 0])]

/-- The 4-byte words of a key, as described by the spec: "the key's 4-byte
words", one per `sizeof(int)` chunk of the fixed key size. -/
def keyWords (key : Bytes) (keySize : Nat) : List Nat :=
  (List.range (keySize / 4)).map (word32At key)

/-- The FNV-style accumulation described by the spec: "start from a fixed
64-bit offset basis; for each word XOR the word in, then multiply by a
fixed prime" — a fold of `fnvStep` over the word list. -/
def fnvOverWords (ws : List Nat) : Nat :=
  ws.foldl fnvStep 14695981039346656037

/-- Batch `Insert` in which each request's loop runs with `e` units of fuel
beyond the wrapper's budget. -/
def insertBatchExtra (e : Nat) :
    HState → List (Bytes × Bytes) → HState × List (Option Nat × Bool)
  | st, [] => (st, [])
  | st, (k, v) :: rest =>
    let r := insertOneWith st k v (st.heap.length + 3 + e)
    let rr := insertBatchExtra e r.1 rest
    (rr.1, r.2 :: rr.2)

/-- Batch `Search` with extra fuel per request. -/
def searchBatchExtra (e : Nat) (st : HState) (keys : List Bytes) :
    List (Option Nat × Bool) :=
  keys.map (fun k => searchOneWith st k (st.heap.length + 1 + e))

/-- Batch `Remove` with extra fuel per request. -/
def removeBatchExtra (e : Nat) : HState → List Bytes → HState × List Bool
  | st, [] => (st, [])
  | st, k :: rest =>
    let r := removeOneWith st k (st.heap.length + 1 + e)
    let rr := removeBatchExtra e r.1 rest
    (rr.1, r.2 :: rr.2)

/-- A 4-byte key or value whose first byte is `i`. -/
def byte4 (i : Nat) : Bytes := [i, 0, 0, 0]

/-- 32 distinct pairs, all hashing to the single bucket of a one-bucket
table; key `i` carries value `100 + i`. -/
def holePairs : List (Bytes × Bytes) :=
  (List.range 32).map (fun i => (byte4 i, byte4 (100 + i)))

/-- After inserting the 32 pairs the head slab is full and key 31 lives in
a chained slab. -/
def holeBase : HState := (insertBatch (freshTable 1 40 4 4) holePairs).1

/-- Removing key 0 leaves an empty slot in the head slab while key 31 still
lives in the chained slab. -/
def holeState : HState := (removeOne holeBase (byte4 0)).1

/-- Re-inserting key 31 (still present in the chained slab) with new value
200 claims the hole in the head slab: the table now holds two records with
key bytes `byte4 31`. -/
def dupState : HState := (insertOne holeState (byte4 31) (byte4 200)).1

/-- A one-entry table used to witness the amended C2 and C3. -/
def c2State : HState :=
  (insertBatch (freshTable 1 4 4 4) [(byte4 1, byte4 9)]).1

/-- A one-bucket table whose head slab is full: 31 distinct keys. -/
def c5State : HState :=
  (insertBatch (freshTable 1 33 4 4)
    ((List.range 31).map (fun i => (byte4 i, byte4 (100 + i))))).1

/-- The heap handles referenced by the bucket chains of the table, bucket
by bucket. -/
def allChainNodes (st : HState) : List Nat :=
  ((List.range st.numBuckets).map
    (fun b => chainNodes st b .head (st.heap.length + 1))).flatten

/-- Two requests against a table whose pair pool holds a single block: the
second request finds the pool exhausted. -/
def c7Pairs : List (Bytes × Bytes) := [(byte4 0, byte4 5), (byte4 1, byte4 6)]

/-- The loop of `HashmapCUDAContext::Insert` (ll. 519-622) run over the
bounded slab pool: identical to `insertLoop` except that Branch 3.2
allocates from `allocSlabBounded` and the CAS installs whatever handle
`AllocateSlab` returned — the code never tests it against the sentinel
(ll. 595-614) — so on pool exhaustion the CAS writes `EMPTY_SLAB_PTR` back
(leaving the next pointer empty) and the lane restarts in the same
configuration. -/
def insertLoopB (cap : Nat) (st : HState) (key : Bytes) (p b : Nat) :
    Cursor → Nat → HState × Option Nat × Bool
  | _, 0 => (st, none, false)
  | c, fuel + 1 =>
    match readSlab st b c with
    | none => (st, none, false)
    | some s =>
      match findKeyIdx st key s.slots with
      | some _ => (freeRecord st p, none, false)
      | none =>
        match findEmptyIdx s.slots with
        | some i => (writeSlot st b c i (some p), some p, true)
        | none =>
          match s.next with
          | some nx => insertLoopB cap st key p b (.node nx) fuel
          | none =>
            let a := allocSlabBounded cap st
            insertLoopB cap (setNext a.1 b c a.2) key p b c fuel

/-- `Insert` with explicit fuel over the bounded slab pool: identical to
`insertOneWith` but running `insertLoopB`. -/
def insertOneBWith (cap : Nat) (st : HState) (key value : Bytes)
    (fuel : Nat) : HState × Option Nat × Bool :=
  match allocRecord st (key.take st.dsizeKey ++ value.take st.dsizeValue) with
  | none => (st, none, false)
  | some (st1, p) => insertLoopB cap st1 key p (computeBucket st key) .head fuel

/-- The state of a slab-exhausted insert request into `c5State` right after
the eager pair preallocation: record 31 holds the serialized pair. -/
def c7StuckState : HState :=
  { c5State with records := c5State.records.set 31 (some ((byte4 31).take c5State.dsizeKey ++ (byte4 200).take c5State.dsizeValue)) }

/-! ## Infrastructure lemmas: projections of the state updates -/

theorem records_setSlab (st : HState) (b : Nat) (c : Cursor) (s : Slab) :
    (setSlab st b c s).records = st.records := by
  cases c <;> rfl

theorem numBuckets_setSlab (st : HState) (b : Nat) (c : Cursor) (s : Slab) :
    (setSlab st b c s).numBuckets = st.numBuckets := by
  cases c <;> rfl

theorem dsizeKey_setSlab (st : HState) (b : Nat) (c : Cursor) (s : Slab) :
    (setSlab st b c s).dsizeKey = st.dsizeKey := by
  cases c <;> rfl

theorem dsizeValue_setSlab (st : HState) (b : Nat) (c : Cursor) (s : Slab) :
    (setSlab st b c s).dsizeValue = st.dsizeValue := by
  cases c <;> rfl

theorem bucketsLength_setSlab (st : HState) (b : Nat) (c : Cursor) (s : Slab) :
    (setSlab st b c s).buckets.length = st.buckets.length := by
  cases c <;> simp [setSlab]

theorem heapLength_setSlab (st : HState) (b : Nat) (c : Cursor) (s : Slab) :
    (setSlab st b c s).heap.length = st.heap.length := by
  cases c <;> simp [setSlab]

theorem records_writeSlot (st : HState) (b : Nat) (c : Cursor) (i : Nat)
    (v : Option Nat) : (writeSlot st b c i v).records = st.records := by
  unfold writeSlot
  cases readSlab st b c with
  | none => rfl
  | some s => exact records_setSlab ..

theorem numBuckets_writeSlot (st : HState) (b : Nat) (c : Cursor) (i : Nat)
    (v : Option Nat) : (writeSlot st b c i v).numBuckets = st.numBuckets := by
  unfold writeSlot
  cases readSlab st b c with
  | none => rfl
  | some s => exact numBuckets_setSlab ..

theorem dsizeKey_writeSlot (st : HState) (b : Nat) (c : Cursor) (i : Nat)
    (v : Option Nat) : (writeSlot st b c i v).dsizeKey = st.dsizeKey := by
  unfold writeSlot
  cases readSlab st b c with
  | none => rfl
  | some s => exact dsizeKey_setSlab ..

theorem dsizeValue_writeSlot (st : HState) (b : Nat) (c : Cursor) (i : Nat)
    (v : Option Nat) : (writeSlot st b c i v).dsizeValue = st.dsizeValue := by
  unfold writeSlot
  cases readSlab st b c with
  | none => rfl
  | some s => exact dsizeValue_setSlab ..

theorem bucketsLength_writeSlot (st : HState) (b : Nat) (c : Cursor) (i : Nat)
    (v : Option Nat) : (writeSlot st b c i v).buckets.length = st.buckets.length := by
  unfold writeSlot
  cases readSlab st b c with
  | none => rfl
  | some s => exact bucketsLength_setSlab ..

theorem heapLength_writeSlot (st : HState) (b : Nat) (c : Cursor) (i : Nat)
    (v : Option Nat) : (writeSlot st b c i v).heap.length = st.heap.length := by
  unfold writeSlot
  cases readSlab st b c with
  | none => rfl
  | some s => exact heapLength_setSlab ..

theorem records_setNext (st : HState) (b : Nat) (c : Cursor) (nx : Option Nat) :
    (setNext st b c nx).records = st.records := by
  unfold setNext
  cases readSlab st b c with
  | none => rfl
  | some s => exact records_setSlab ..

theorem numBuckets_setNext (st : HState) (b : Nat) (c : Cursor) (nx : Option Nat) :
    (setNext st b c nx).numBuckets = st.numBuckets := by
  unfold setNext
  cases readSlab st b c with
  | none => rfl
  | some s => exact numBuckets_setSlab ..

theorem dsizeKey_setNext (st : HState) (b : Nat) (c : Cursor) (nx : Option Nat) :
    (setNext st b c nx).dsizeKey = st.dsizeKey := by
  unfold setNext
  cases readSlab st b c with
  | none => rfl
  | some s => exact dsizeKey_setSlab ..

theorem dsizeValue_setNext (st : HState) (b : Nat) (c : Cursor) (nx : Option Nat) :
    (setNext st b c nx).dsizeValue = st.dsizeValue := by
  unfold setNext
  cases readSlab st b c with
  | none => rfl
  | some s => exact dsizeValue_setSlab ..

theorem bucketsLength_setNext (st : HState) (b : Nat) (c : Cursor) (nx : Option Nat) :
    (setNext st b c nx).buckets.length = st.buckets.length := by
  unfold setNext
  cases readSlab st b c with
  | none => rfl
  | some s => exact bucketsLength_setSlab ..

theorem heapLength_setNext (st : HState) (b : Nat) (c : Cursor) (nx : Option Nat) :
    (setNext st b c nx).heap.length = st.heap.length := by
  unfold setNext
  cases readSlab st b c with
  | none => rfl
  | some s => exact heapLength_setSlab ..

/-! ## Infrastructure lemmas: membership -/

theorem readSlab_mem {st : HState} {b : Nat} {c : Cursor} {s : Slab}
    (h : readSlab st b c = some s) : s ∈ allSlabs st := by
  cases c with
  | head => exact List.mem_append_left _ (List.getElem?_mem h)
  | node hh => exact List.mem_append_right _ (List.getElem?_mem h)

theorem chainSlabs_subset {st : HState} {b : Nat} :
    ∀ {c : Cursor} {f : Nat} {s : Slab}, s ∈ chainSlabs st b c f →
      s ∈ allSlabs st := by
  intro c f
  induction f generalizing c with
  | zero => intro s hs; simp [chainSlabs] at hs
  | succ f ih =>
    intro s hs
    unfold chainSlabs at hs
    cases hr : readSlab st b c with
    | none => rw [hr] at hs; simp at hs
    | some t =>
      rw [hr] at hs
      rcases List.mem_cons.1 hs with rfl | hs
      · exact readSlab_mem hr
      · cases hn : t.next with
        | none => rw [hn] at hs; simp at hs
        | some nx => rw [hn] at hs; exact ih hs

theorem mem_ptrsOf {l : List Slab} {s : Slab} {p : Nat}
    (hs : s ∈ l) (hp : some p ∈ s.slots) : p ∈ ptrsOf l :=
  List.mem_flatten.2 ⟨slabPtrs s, List.mem_map_of_mem _ hs,
    List.mem_filterMap.2 ⟨some p, hp, rfl⟩⟩

theorem mem_occupiedPtrs {st : HState} {s : Slab} {p : Nat}
    (hs : s ∈ allSlabs st) (hp : some p ∈ s.slots) : p ∈ occupiedPtrs st := by
  rcases List.mem_append.1 hs with h | h
  · exact List.mem_append_left _ (mem_ptrsOf h hp)
  · exact List.mem_append_right _ (mem_ptrsOf h hp)

/-! ## Infrastructure lemmas: permutations under slot updates -/

theorem filterMap_set_some_perm {l : List (Option Nat)} {i : Nat}
    (hx : l[i]? = some none) (p : Nat) :
    (l.set i (some p)).filterMap id ~ p :: l.filterMap id := by
  induction l generalizing i with
  | nil => simp at hx
  | cons x t ih =>
    cases i with
    | zero =>
      simp only [List.getElem?_cons_zero, Option.some.injEq] at hx
      subst hx
      simp only [List.set_cons_zero, List.filterMap_cons]
      exact .refl _
    | succ i =>
      simp only [List.getElem?_cons_succ] at hx
      simp only [List.set_cons_succ, List.filterMap_cons]
      cases x with
      | none => exact ih hx
      | some q => exact ((ih hx).cons q).trans (List.Perm.swap p q _)

theorem filterMap_set_none_perm {l : List (Option Nat)} {i : Nat} {p : Nat}
    (hx : l[i]? = some (some p)) :
    l.filterMap id ~ p :: (l.set i none).filterMap id := by
  induction l generalizing i with
  | nil => simp at hx
  | cons x t ih =>
    cases i with
    | zero =>
      simp only [List.getElem?_cons_zero, Option.some.injEq] at hx
      subst hx
      simp only [List.set_cons_zero, List.filterMap_cons]
      exact .refl _
    | succ i =>
      simp only [List.getElem?_cons_succ] at hx
      simp only [List.set_cons_succ, List.filterMap_cons]
      cases x with
      | none => exact ih hx
      | some q => exact ((ih hx).cons q).trans (List.Perm.swap p q _)

theorem flatten_set_perm {L : List (List Nat)} {j : Nat} {x m : List Nat}
    {p : Nat} (hj : L[j]? = some x) (hm : m ~ p :: x) :
    (L.set j m).flatten ~ p :: L.flatten := by
  induction L generalizing j with
  | nil => simp at hj
  | cons y t ih =>
    cases j with
    | zero =>
      simp only [List.getElem?_cons_zero, Option.some.injEq] at hj
      subst hj
      simp only [List.set_cons_zero, List.flatten_cons]
      exact hm.append_right _
    | succ j =>
      simp only [List.getElem?_cons_succ] at hj
      simp only [List.set_cons_succ, List.flatten_cons]
      exact ((ih hj).append_left y).trans List.perm_middle

theorem flatten_set_perm' {L : List (List Nat)} {j : Nat} {x m : List Nat}
    {p : Nat} (hj : L[j]? = some x) (hm : x ~ p :: m) :
    L.flatten ~ p :: (L.set j m).flatten := by
  induction L generalizing j with
  | nil => simp at hj
  | cons y t ih =>
    cases j with
    | zero =>
      simp only [List.getElem?_cons_zero, Option.some.injEq] at hj
      subst hj
      simp only [List.set_cons_zero, List.flatten_cons]
      exact hm.append_right _
    | succ j =>
      simp only [List.getElem?_cons_succ] at hj
      simp only [List.set_cons_succ, List.flatten_cons]
      exact ((ih hj).append_left y).trans List.perm_middle

theorem ptrsOf_set_perm {l : List Slab} {j : Nat} {s s' : Slab} {p : Nat}
    (hj : l[j]? = some s) (hm : slabPtrs s' ~ p :: slabPtrs s) :
    ptrsOf (l.set j s') ~ p :: ptrsOf l := by
  unfold ptrsOf
  rw [List.map_set]
  exact flatten_set_perm (by rw [List.getElem?_map, hj]; rfl) hm

theorem ptrsOf_set_perm' {l : List Slab} {j : Nat} {s s' : Slab} {p : Nat}
    (hj : l[j]? = some s) (hm : slabPtrs s ~ p :: slabPtrs s') :
    ptrsOf l ~ p :: ptrsOf (l.set j s') := by
  unfold ptrsOf
  rw [List.map_set]
  exact flatten_set_perm' (by rw [List.getElem?_map, hj]; rfl) hm

theorem occupiedPtrs_writeSlot_some {st : HState} {b : Nat} {c : Cursor}
    {s : Slab} (hs : readSlab st b c = some s) {i : Nat}
    (hi : s.slots[i]? = some none) (p : Nat) :
    occupiedPtrs (writeSlot st b c i (some p)) ~ p :: occupiedPtrs st := by
  unfold writeSlot
  rw [hs]
  have hperm : slabPtrs { s with slots := s.slots.set i (some p) }
      ~ p :: slabPtrs s := filterMap_set_some_perm hi p
  cases c with
  | head =>
    show ptrsOf (st.buckets.set b _) ++ ptrsOf st.heap ~ _
    exact ((ptrsOf_set_perm hs hperm).append_right _)
  | node hh =>
    show ptrsOf st.buckets ++ ptrsOf (st.heap.set hh _) ~ _
    exact ((ptrsOf_set_perm hs hperm).append_left _).trans List.perm_middle

theorem occupiedPtrs_writeSlot_none {st : HState} {b : Nat} {c : Cursor}
    {s : Slab} (hs : readSlab st b c = some s) {i : Nat} {p : Nat}
    (hi : s.slots[i]? = some (some p)) :
    occupiedPtrs st ~ p :: occupiedPtrs (writeSlot st b c i none) := by
  unfold writeSlot
  rw [hs]
  have hperm : slabPtrs s
      ~ p :: slabPtrs { s with slots := s.slots.set i none } :=
    filterMap_set_none_perm hi
  cases c with
  | head =>
    show _ ~ p :: (ptrsOf (st.buckets.set b _) ++ ptrsOf st.heap)
    exact ((ptrsOf_set_perm' hs hperm).append_right _)
  | node hh =>
    show _ ~ p :: (ptrsOf st.buckets ++ ptrsOf (st.heap.set hh _))
    exact ((ptrsOf_set_perm' hs hperm).append_left _).trans List.perm_middle

theorem set_self_of_getElem? {l : List α} {j : Nat} {a : α}
    (h : l[j]? = some a) : l.set j a = l := by
  induction l generalizing j with
  | nil => simp at h
  | cons x t ih =>
    cases j with
    | zero =>
      simp only [List.getElem?_cons_zero, Option.some.injEq] at h
      rw [List.set_cons_zero, h]
    | succ j =>
      simp only [List.getElem?_cons_succ] at h
      rw [List.set_cons_succ, ih h]

theorem ptrsOf_set_same {l : List Slab} {j : Nat} {s s' : Slab}
    (hj : l[j]? = some s) (hm : slabPtrs s' = slabPtrs s) :
    ptrsOf (l.set j s') = ptrsOf l := by
  unfold ptrsOf
  rw [List.map_set, hm,
    set_self_of_getElem? (by rw [List.getElem?_map, hj]; rfl)]

theorem occupiedPtrs_setNext (st : HState) (b : Nat) (c : Cursor)
    (nx : Option Nat) : occupiedPtrs (setNext st b c nx) = occupiedPtrs st := by
  unfold setNext
  cases hs : readSlab st b c with
  | none => rfl
  | some s =>
    cases c with
    | head =>
      show ptrsOf (st.buckets.set b { s with next := nx }) ++ ptrsOf st.heap
        = ptrsOf st.buckets ++ ptrsOf st.heap
      rw [ptrsOf_set_same hs
        (show slabPtrs { s with next := nx } = slabPtrs s from rfl)]
    | node hh =>
      show ptrsOf st.buckets ++ ptrsOf (st.heap.set hh { s with next := nx })
        = ptrsOf st.buckets ++ ptrsOf st.heap
      rw [ptrsOf_set_same hs
        (show slabPtrs { s with next := nx } = slabPtrs s from rfl)]

theorem slabPtrs_emptySlab : slabPtrs emptySlab = [] := by decide

theorem occupiedPtrs_allocSlab (st : HState) :
    occupiedPtrs (allocSlab st).1 = occupiedPtrs st := by
  show ptrsOf st.buckets ++ ptrsOf (st.heap ++ [emptySlab])
    = ptrsOf st.buckets ++ ptrsOf st.heap
  unfold ptrsOf
  rw [List.map_append, List.flatten_append]
  simp [slabPtrs_emptySlab]

/-! ## Infrastructure lemmas: chain structure under updates -/

theorem readSlab_writeSlot_map_next (st : HState) (b : Nat) (c : Cursor)
    (i : Nat) (v : Option Nat) (b' : Nat) (c' : Cursor) :
    (readSlab (writeSlot st b c i v) b' c').map Slab.next
      = (readSlab st b' c').map Slab.next := by
  unfold writeSlot
  cases hs : readSlab st b c with
  | none => rfl
  | some s =>
    have hb : ∀ (l : List Slab) (j j' : Nat) (t : Slab), l[j]? = some t →
        ((l.set j { t with slots := t.slots.set i v })[j']?).map Slab.next
          = (l[j']?).map Slab.next := by
      intro l j j' t ht
      rw [List.getElem?_set]
      by_cases hjj : j = j'
      · subst hjj
        rw [if_pos rfl, if_pos (by
          rcases List.getElem?_eq_some.1 ht with ⟨h, _⟩
          exact h), ht]
        rfl
      · rw [if_neg hjj]
    cases c with
    | head =>
      cases c' with
      | head => exact hb st.buckets b b' s hs
      | node h' => rfl
    | node hh =>
      cases c' with
      | head => rfl
      | node h' => exact hb st.heap hh h' s hs

theorem chainClosed_congr {st st' : HState} {b : Nat}
    (h : ∀ c, (readSlab st' b c).map Slab.next
      = (readSlab st b c).map Slab.next) :
    ∀ (c : Cursor) (f : Nat), chainClosed st' b c f = chainClosed st b c f := by
  intro c f
  induction f generalizing c with
  | zero => rfl
  | succ f ih =>
    have hc := h c
    cases hr' : readSlab st' b c with
    | none =>
      rw [hr'] at hc
      cases hr : readSlab st b c with
      | none => simp [chainClosed, hr, hr']
      | some t => rw [hr] at hc; simp at hc
    | some s' =>
      rw [hr'] at hc
      cases hr : readSlab st b c with
      | none => rw [hr] at hc; simp at hc
      | some t =>
        rw [hr] at hc
        simp only [Option.map_some', Option.some.injEq] at hc
        simp only [chainClosed, hr, hr', hc]
        cases t.next with
        | none => rfl
        | some nx => exact ih (.node nx)

theorem chainClosed_writeSlot (st : HState) (b : Nat) (c : Cursor) (i : Nat)
    (v : Option Nat) (b' : Nat) (c' : Cursor) (f : Nat) :
    chainClosed (writeSlot st b c i v) b' c' f = chainClosed st b' c' f :=
  chainClosed_congr (fun c'' => readSlab_writeSlot_map_next st b c i v b' c'')
    c' f

theorem chainClosed_mono {st : HState} {b : Nat} :
    ∀ {c : Cursor} {f g : Nat}, f ≤ g → chainClosed st b c f = true →
      chainClosed st b c g = true := by
  intro c f
  induction f generalizing c with
  | zero => intro g _ hcl; simp [chainClosed] at hcl
  | succ f ih =>
    intro g hfg hcl
    obtain ⟨g', rfl⟩ : ∃ g', g = g' + 1 :=
      ⟨g - 1, by omega⟩
    cases hr : readSlab st b c with
    | none =>
      simp only [chainClosed, hr] at hcl
      exact absurd hcl (by simp)
    | some s =>
      cases hn : s.next with
      | none => simp only [chainClosed, hr, hn]
      | some nx =>
        simp only [chainClosed, hr, hn] at hcl
        simp only [chainClosed, hr, hn]
        exact ih (by omega) hcl

theorem slotMatches_congr {st st' : HState} (hr : st'.records = st.records)
    (hk : st'.dsizeKey = st.dsizeKey) (key : Bytes) :
    slotMatches st' key = slotMatches st key := by
  funext o
  cases o with
  | none => rfl
  | some p => simp only [slotMatches, hr, hk]

/-! ## Search loop characterization -/

theorem searchLoop_noMatch {st : HState} {key : Bytes} {b : Nat} :
    ∀ {c : Cursor} {f : Nat}, chainClosed st b c f = true →
      (∀ s ∈ chainSlabs st b c f, ∀ o ∈ s.slots,
        slotMatches st key o = false) →
      searchLoop st key b c f = (none, false) := by
  intro c f
  induction f generalizing c with
  | zero => intro hcl _; simp [chainClosed] at hcl
  | succ f ih =>
    intro hcl hnm
    cases hr : readSlab st b c with
    | none =>
      simp only [chainClosed, hr] at hcl
      exact absurd hcl (by simp)
    | some s =>
      have hsmem : s ∈ chainSlabs st b c (f + 1) := by
        simp only [chainSlabs, hr]
        exact List.mem_cons_self _ _
      have hfk : findKeyIdx st key s.slots = none :=
        List.findIdx?_eq_none_iff.2 (fun o ho => hnm s hsmem o ho)
      cases hn : s.next with
      | none => simp only [searchLoop, hr, hfk, hn]
      | some nx =>
        simp only [searchLoop, hr, hfk, hn]
        apply ih
        · simp only [chainClosed, hr, hn] at hcl
          exact hcl
        · intro t ht o ho
          apply hnm t _ o ho
          simp only [chainSlabs, hr, hn]
          exact List.mem_cons_of_mem _ ht

theorem searchLoop_found {st : HState} {key : Bytes} {b : Nat} {p : Nat} :
    ∀ {c : Cursor} {f : Nat}, chainClosed st b c f = true →
      (∀ s ∈ chainSlabs st b c f, ∀ o ∈ s.slots,
        slotMatches st key o = true → o = some p) →
      (∃ s ∈ chainSlabs st b c f, ∃ o ∈ s.slots,
        slotMatches st key o = true) →
      searchLoop st key b c f = (some p, true) := by
  intro c f
  induction f generalizing c with
  | zero => intro hcl _ _; simp [chainClosed] at hcl
  | succ f ih =>
    intro hcl huniq hex
    cases hr : readSlab st b c with
    | none =>
      simp only [chainClosed, hr] at hcl
      exact absurd hcl (by simp)
    | some s =>
      have hsmem : s ∈ chainSlabs st b c (f + 1) := by
        simp only [chainSlabs, hr]
        exact List.mem_cons_self _ _
      cases hfk : findKeyIdx st key s.slots with
      | some i =>
        obtain ⟨hi, hmatch, -⟩ := List.findIdx?_eq_some_iff_getElem.1 hfk
        have hip : s.slots[i] = some p :=
          huniq s hsmem _ (List.getElem_mem hi) hmatch
        simp only [searchLoop, hr, hfk]
        rw [List.getD_eq_getElem?_getD, List.getElem?_eq_getElem hi, hip]
        rfl
      | none =>
        have hnone : ∀ o ∈ s.slots, slotMatches st key o = false :=
          List.findIdx?_eq_none_iff.1 hfk
        cases hn : s.next with
        | none =>
          exfalso
          obtain ⟨t, ht, o, ho, hm⟩ := hex
          simp only [chainSlabs, hr, hn, List.mem_singleton] at ht
          subst ht
          rw [hnone o ho] at hm
          exact Bool.false_ne_true hm
        | some nx =>
          simp only [searchLoop, hr, hfk, hn]
          apply ih
          · simp only [chainClosed, hr, hn] at hcl
            exact hcl
          · intro t ht o ho
            apply huniq t _ o ho
            simp only [chainSlabs, hr, hn]
            exact List.mem_cons_of_mem _ ht
          · obtain ⟨t, ht, o, ho, hm⟩ := hex
            simp only [chainSlabs, hr, hn, List.mem_cons] at ht
            rcases ht with rfl | ht
            · rw [hnone o ho] at hm
              exact absurd hm Bool.false_ne_true
            · exact ⟨t, ht, o, ho, hm⟩

theorem searchLoop_found_mask {st : HState} {key : Bytes} {b : Nat} :
    ∀ {c : Cursor} {f : Nat}, chainClosed st b c f = true →
      (∃ s ∈ chainSlabs st b c f, ∃ o ∈ s.slots,
        slotMatches st key o = true) →
      (searchLoop st key b c f).2 = true := by
  intro c f
  induction f generalizing c with
  | zero => intro hcl _; simp [chainClosed] at hcl
  | succ f ih =>
    intro hcl hex
    cases hr : readSlab st b c with
    | none =>
      simp only [chainClosed, hr] at hcl
      exact absurd hcl (by simp)
    | some s =>
      cases hfk : findKeyIdx st key s.slots with
      | some i => simp only [searchLoop, hr, hfk]
      | none =>
        have hnone : ∀ o ∈ s.slots, slotMatches st key o = false :=
          List.findIdx?_eq_none_iff.1 hfk
        cases hn : s.next with
        | none =>
          exfalso
          obtain ⟨t, ht, o, ho, hm⟩ := hex
          simp only [chainSlabs, hr, hn, List.mem_singleton] at ht
          subst ht
          rw [hnone o ho] at hm
          exact Bool.false_ne_true hm
        | some nx =>
          simp only [searchLoop, hr, hfk, hn]
          apply ih
          · simp only [chainClosed, hr, hn] at hcl
            exact hcl
          · obtain ⟨t, ht, o, ho, hm⟩ := hex
            simp only [chainSlabs, hr, hn, List.mem_cons] at ht
            rcases ht with rfl | ht
            · rw [hnone o ho] at hm
              exact absurd hm Bool.false_ne_true
            · exact ⟨t, ht, o, ho, hm⟩

theorem searchLoop_stable {st : HState} {key : Bytes} {b : Nat} :
    ∀ {c : Cursor} {f : Nat}, chainClosed st b c f = true →
      ∀ g, f ≤ g → searchLoop st key b c g = searchLoop st key b c f := by
  intro c f
  induction f generalizing c with
  | zero => intro hcl _ _; simp [chainClosed] at hcl
  | succ f ih =>
    intro hcl g hfg
    obtain ⟨g', rfl⟩ : ∃ g', g = g' + 1 := ⟨g - 1, by omega⟩
    cases hr : readSlab st b c with
    | none =>
      simp only [chainClosed, hr] at hcl
      exact absurd hcl (by simp)
    | some s =>
      cases hfk : findKeyIdx st key s.slots with
      | some i => simp only [searchLoop, hr, hfk]
      | none =>
        cases hn : s.next with
        | none => simp only [searchLoop, hr, hfk, hn]
        | some nx =>
          simp only [searchLoop, hr, hfk, hn]
          apply ih
          · simp only [chainClosed, hr, hn] at hcl
            exact hcl
          · omega

/-! ## Remove loop characterization -/

theorem removeLoop_noMatch {st : HState} {key : Bytes} {b : Nat} :
    ∀ {c : Cursor} {f : Nat}, chainClosed st b c f = true →
      (∀ s ∈ chainSlabs st b c f, ∀ o ∈ s.slots,
        slotMatches st key o = false) →
      removeLoop st key b c f = (st, false) := by
  intro c f
  induction f generalizing c with
  | zero => intro hcl _; simp [chainClosed] at hcl
  | succ f ih =>
    intro hcl hnm
    cases hr : readSlab st b c with
    | none =>
      simp only [chainClosed, hr] at hcl
      exact absurd hcl (by simp)
    | some s =>
      have hsmem : s ∈ chainSlabs st b c (f + 1) := by
        simp only [chainSlabs, hr]
        exact List.mem_cons_self _ _
      have hfk : findKeyIdx st key s.slots = none :=
        List.findIdx?_eq_none_iff.2 (fun o ho => hnm s hsmem o ho)
      cases hn : s.next with
      | none => simp only [removeLoop, hr, hfk, hn]
      | some nx =>
        simp only [removeLoop, hr, hfk, hn]
        apply ih
        · simp only [chainClosed, hr, hn] at hcl
          exact hcl
        · intro t ht o ho
          apply hnm t _ o ho
          simp only [chainSlabs, hr, hn]
          exact List.mem_cons_of_mem _ ht

theorem removeLoop_found {st : HState} {key : Bytes} {b : Nat} {p : Nat} :
    ∀ {c : Cursor} {f : Nat}, chainClosed st b c f = true →
      (∀ s ∈ chainSlabs st b c f, ∀ o ∈ s.slots,
        slotMatches st key o = true → o = some p) →
      (∃ s ∈ chainSlabs st b c f, ∃ o ∈ s.slots,
        slotMatches st key o = true) →
      ∃ c' s i, readSlab st b c' = some s ∧ s.slots[i]? = some (some p) ∧
        removeLoop st key b c f = (freeRecord (writeSlot st b c' i none) p, true) := by
  intro c f
  induction f generalizing c with
  | zero => intro hcl _ _; simp [chainClosed] at hcl
  | succ f ih =>
    intro hcl huniq hex
    cases hr : readSlab st b c with
    | none =>
      simp only [chainClosed, hr] at hcl
      exact absurd hcl (by simp)
    | some s =>
      have hsmem : s ∈ chainSlabs st b c (f + 1) := by
        simp only [chainSlabs, hr]
        exact List.mem_cons_self _ _
      cases hfk : findKeyIdx st key s.slots with
      | some i =>
        obtain ⟨hi, hmatch, -⟩ := List.findIdx?_eq_some_iff_getElem.1 hfk
        have hip : s.slots[i] = some p :=
          huniq s hsmem _ (List.getElem_mem hi) hmatch
        refine ⟨c, s, i, hr, ?_, ?_⟩
        · rw [List.getElem?_eq_getElem hi, hip]
        · simp only [removeLoop, hr, hfk]
          rw [List.getD_eq_getElem?_getD, List.getElem?_eq_getElem hi, hip]
          rfl
      | none =>
        have hnone : ∀ o ∈ s.slots, slotMatches st key o = false :=
          List.findIdx?_eq_none_iff.1 hfk
        cases hn : s.next with
        | none =>
          exfalso
          obtain ⟨t, ht, o, ho, hm⟩ := hex
          simp only [chainSlabs, hr, hn, List.mem_singleton] at ht
          subst ht
          rw [hnone o ho] at hm
          exact Bool.false_ne_true hm
        | some nx =>
          have hcl' : chainClosed st b (.node nx) f = true := by
            simp only [chainClosed, hr, hn] at hcl
            exact hcl
          have huniq' : ∀ s' ∈ chainSlabs st b (.node nx) f, ∀ o ∈ s'.slots,
              slotMatches st key o = true → o = some p := by
            intro t ht o ho
            apply huniq t _ o ho
            simp only [chainSlabs, hr, hn]
            exact List.mem_cons_of_mem _ ht
          have hex' : ∃ s' ∈ chainSlabs st b (.node nx) f, ∃ o ∈ s'.slots,
              slotMatches st key o = true := by
            obtain ⟨t, ht, o, ho, hm⟩ := hex
            simp only [chainSlabs, hr, hn, List.mem_cons] at ht
            rcases ht with rfl | ht
            · rw [hnone o ho] at hm
              exact absurd hm Bool.false_ne_true
            · exact ⟨t, ht, o, ho, hm⟩
          obtain ⟨c', s', i, hrs, hip, heq⟩ := ih hcl' huniq' hex'
          refine ⟨c', s', i, hrs, hip, ?_⟩
          simp only [removeLoop, hr, hfk, hn]
          exact heq

/-! ## Insert loop: slab allocation and chain extension -/

theorem readSlab_allocSlab_of_some {st : HState} {b : Nat} {c : Cursor}
    {s : Slab} (hs : readSlab st b c = some s) :
    readSlab (allocSlab st).1 b c = some s := by
  cases c with
  | head => exact hs
  | node h =>
    show (st.heap ++ [emptySlab])[h]? = some s
    rw [List.getElem?_append_left (by
      rcases List.getElem?_eq_some.1 hs with ⟨hlt, -⟩
      exact hlt)]
    exact hs

theorem allSlabs_allocSlab_mem {st : HState} {s' : Slab}
    (h : s' ∈ allSlabs (allocSlab st).1) :
    s' ∈ allSlabs st ∨ s' = emptySlab := by
  rcases List.mem_append.1 h with hb | hh
  · exact .inl (List.mem_append_left _ hb)
  · rcases List.mem_append.1 hh with hh | hh
    · exact .inl (List.mem_append_right _ hh)
    · exact .inr (List.mem_singleton.1 hh)

theorem allSlabs_setSlab_mem {st : HState} {b : Nat} {c : Cursor} {t s' : Slab}
    (h : s' ∈ allSlabs (setSlab st b c t)) :
    s' ∈ allSlabs st ∨ s' = t := by
  cases c with
  | head =>
    rcases List.mem_append.1 h with hb | hh
    · rcases List.mem_or_eq_of_mem_set hb with hb | hb
      · exact .inl (List.mem_append_left _ hb)
      · exact .inr hb
    · exact .inl (List.mem_append_right _ hh)
  | node hh0 =>
    rcases List.mem_append.1 h with hb | hh
    · exact .inl (List.mem_append_left _ hb)
    · rcases List.mem_or_eq_of_mem_set hh with hh | hh
      · exact .inl (List.mem_append_right _ hh)
      · exact .inr hh

theorem allSlabs_writeSlot_mem {st : HState} {b : Nat} {c : Cursor} {i : Nat}
    {v : Option Nat} {s' : Slab} (h : s' ∈ allSlabs (writeSlot st b c i v)) :
    s' ∈ allSlabs st ∨
      ∃ s ∈ allSlabs st, s' = { s with slots := s.slots.set i v } := by
  unfold writeSlot at h
  cases hs : readSlab st b c with
  | none => rw [hs] at h; exact .inl h
  | some s =>
    rw [hs] at h
    rcases allSlabs_setSlab_mem h with h | h
    · exact .inl h
    · exact .inr ⟨s, readSlab_mem hs, h⟩

theorem allSlabs_setNext_mem {st : HState} {b : Nat} {c : Cursor}
    {nx : Option Nat} {s' : Slab} (h : s' ∈ allSlabs (setNext st b c nx)) :
    s' ∈ allSlabs st ∨ ∃ s ∈ allSlabs st, s' = { s with next := nx } := by
  unfold setNext at h
  cases hs : readSlab st b c with
  | none => rw [hs] at h; exact .inl h
  | some s =>
    rw [hs] at h
    rcases allSlabs_setSlab_mem h with h | h
    · exact .inl h
    · exact .inr ⟨s, readSlab_mem hs, h⟩

/-- After a new tail slab is allocated and linked behind the cell `(b, c)`,
every previously terminating chain still terminates (with one more slab of
budget): the chain either avoids the modified cell, or now ends at the
freshly allocated all-empty slab. -/
theorem chainClosed_extendTail {st : HState} {b : Nat} {c : Cursor} {s : Slab}
    (hs : readSlab st b c = some s) :
    ∀ (b' : Nat) (c' : Cursor) (f : Nat), chainClosed st b' c' f = true →
      chainClosed (setNext (allocSlab st).1 b c (some st.heap.length)) b' c'
        (f + 1) = true := by
  have hstep : setNext (allocSlab st).1 b c (some st.heap.length)
      = setSlab (allocSlab st).1 b c { s with next := some st.heap.length } := by
    unfold setNext
    rw [readSlab_allocSlab_of_some hs]
  rw [hstep]
  intro b' c' f
  induction f generalizing c' with
  | zero => intro hcl; simp [chainClosed] at hcl
  | succ f ih =>
    intro hcl
    cases hrt : readSlab st b' c' with
    | none =>
      simp only [chainClosed, hrt] at hcl
      exact absurd hcl (by simp)
    | some t =>
      cases c with
      | head =>
        -- modified state: buckets set at b, heap extended
        have hfresh : readSlab
            (setSlab (allocSlab st).1 b .head { s with next := some st.heap.length })
            b' (.node st.heap.length) = some emptySlab := by
          show (st.heap ++ [emptySlab])[st.heap.length]? = some emptySlab
          exact List.getElem?_concat_length _ _
        cases c' with
        | head =>
          by_cases hbb : b = b'
          · subst hbb
            have hread : readSlab
                (setSlab (allocSlab st).1 b .head
                  { s with next := some st.heap.length }) b .head
                = some { s with next := some st.heap.length } := by
              show (st.buckets.set b _)[b]? = _
              rw [List.getElem?_set]
              rcases List.getElem?_eq_some.1 hs with ⟨hlt, -⟩
              rw [if_pos rfl, if_pos hlt]
            simp only [chainClosed, hread, hfresh, emptySlab]
          · have hread : readSlab
                (setSlab (allocSlab st).1 b .head
                  { s with next := some st.heap.length }) b' .head
                = some t := by
              show (st.buckets.set b _)[b']? = _
              rw [List.getElem?_set_ne hbb]
              exact hrt
            cases hn : t.next with
            | none => simp only [chainClosed, hread, hn]
            | some nx =>
              simp only [chainClosed, hrt, hn] at hcl
              simp only [chainClosed, hread, hn]
              exact ih (.node nx) hcl
        | node h' =>
          have hlt : h' < st.heap.length := by
            rcases List.getElem?_eq_some.1 hrt with ⟨hlt, -⟩
            exact hlt
          have hread : readSlab
              (setSlab (allocSlab st).1 b .head
                { s with next := some st.heap.length }) b' (.node h')
              = some t := by
            show (st.heap ++ [emptySlab])[h']? = _
            rw [List.getElem?_append_left hlt]
            exact hrt
          cases hn : t.next with
          | none => simp only [chainClosed, hread, hn]
          | some nx =>
            simp only [chainClosed, hrt, hn] at hcl
            simp only [chainClosed, hread, hn]
            exact ih (.node nx) hcl
      | node hh =>
        have hhlt : hh < st.heap.length := by
          rcases List.getElem?_eq_some.1 hs with ⟨hlt, -⟩
          exact hlt
        have hfresh : readSlab
            (setSlab (allocSlab st).1 b (.node hh)
              { s with next := some st.heap.length })
            b' (.node st.heap.length) = some emptySlab := by
          show ((st.heap ++ [emptySlab]).set hh _)[st.heap.length]? = _
          rw [List.getElem?_set_ne (Nat.ne_of_lt hhlt)]
          exact List.getElem?_concat_length _ _
        cases c' with
        | head =>
          have hread : readSlab
              (setSlab (allocSlab st).1 b (.node hh)
                { s with next := some st.heap.length }) b' .head
              = some t := hrt
          cases hn : t.next with
          | none => simp only [chainClosed, hread, hn]
          | some nx =>
            simp only [chainClosed, hrt, hn] at hcl
            simp only [chainClosed, hread, hn]
            exact ih (.node nx) hcl
        | node h' =>
          by_cases hbb : hh = h'
          · subst hbb
            have hread : readSlab
                (setSlab (allocSlab st).1 b (.node hh)
                  { s with next := some st.heap.length }) b' (.node hh)
                = some { s with next := some st.heap.length } := by
              show ((st.heap ++ [emptySlab]).set hh _)[hh]? = _
              rw [List.getElem?_set]
              rw [if_pos rfl, if_pos (by
                rw [List.length_append]
                omega)]
            simp only [chainClosed, hread, hfresh, emptySlab]
          · have hread : readSlab
                (setSlab (allocSlab st).1 b (.node hh)
                  { s with next := some st.heap.length }) b' (.node h')
                = some t := by
              show ((st.heap ++ [emptySlab]).set hh _)[h']? = _
              rw [List.getElem?_set_ne hbb]
              rw [List.getElem?_append_left (by
                rcases List.getElem?_eq_some.1 hrt with ⟨hlt, -⟩
                exact hlt)]
              exact hrt
            cases hn : t.next with
            | none => simp only [chainClosed, hread, hn]
            | some nx =>
              simp only [chainClosed, hrt, hn] at hcl
              simp only [chainClosed, hread, hn]
              exact ih (.node nx) hcl

theorem readSlab_setNext_same {st : HState} {b : Nat} {c : Cursor} {s : Slab}
    (hs : readSlab st b c = some s) (nx : Option Nat) :
    readSlab (setNext st b c nx) b c = some { s with next := nx } := by
  unfold setNext
  rw [hs]
  cases c with
  | head =>
    show (st.buckets.set b _)[b]? = _
    obtain ⟨hlt, -⟩ := List.getElem?_eq_some.1 hs
    rw [List.getElem?_set_self hlt]
  | node hh =>
    show (st.heap.set hh _)[hh]? = _
    obtain ⟨hlt, -⟩ := List.getElem?_eq_some.1 hs
    rw [List.getElem?_set_self hlt]

theorem readSlab_linkFresh {st : HState} {b : Nat} {c : Cursor} {s : Slab}
    (hs : readSlab st b c = some s) (nx : Option Nat) (b' : Nat) :
    readSlab (setNext (allocSlab st).1 b c nx) b' (.node st.heap.length)
      = some emptySlab := by
  have hstep : setNext (allocSlab st).1 b c nx
      = setSlab (allocSlab st).1 b c { s with next := nx } := by
    unfold setNext
    rw [readSlab_allocSlab_of_some hs]
  rw [hstep]
  cases c with
  | head =>
    show (st.heap ++ [emptySlab])[st.heap.length]? = some emptySlab
    exact List.getElem?_concat_length _ _
  | node hh =>
    obtain ⟨hhlt, -⟩ := List.getElem?_eq_some.1 hs
    show ((st.heap ++ [emptySlab]).set hh _)[st.heap.length]? = _
    rw [List.getElem?_set_ne (Nat.ne_of_lt hhlt)]
    exact List.getElem?_concat_length _ _

theorem findKeyIdx_emptySlab (st : HState) (key : Bytes) :
    findKeyIdx st key emptySlab.slots = none := by
  apply List.findIdx?_eq_none_iff.2
  intro o ho
  have : o ∈ List.replicate 31 (none : Option Nat) := ho
  rw [List.eq_of_mem_replicate this]
  rfl

theorem findEmptyIdx_emptySlab : findEmptyIdx emptySlab.slots = some 0 := by
  decide

theorem insertShape_write {st : HState} {b : Nat} {c : Cursor} {s : Slab}
    (hs : readSlab st b c = some s) {i : Nat} (hi : s.slots[i]? = some none)
    (p : Nat) : InsertShape st (writeSlot st b c i (some p)) p := by
  refine ⟨records_writeSlot .., numBuckets_writeSlot .., dsizeKey_writeSlot ..,
    dsizeValue_writeSlot .., bucketsLength_writeSlot .., ?_, ?_,
    occupiedPtrs_writeSlot_some hs hi p, ?_, ?_⟩
  · rw [heapLength_writeSlot]
  · rw [heapLength_writeSlot]
    omega
  · intro h31 s' hs'
    rcases allSlabs_writeSlot_mem hs' with h | ⟨t, ht, rfl⟩
    · exact h31 _ h
    · simpa using h31 _ ht
  · intro hcl b' hb'
    rw [heapLength_writeSlot, chainClosed_writeSlot]
    exact hcl b' hb'

theorem insertShape_link {st : HState} {b : Nat} {c : Cursor} {s : Slab}
    (hs : readSlab st b c = some s) (p : Nat) :
    InsertShape st
      (writeSlot (setNext (allocSlab st).1 b c (some st.heap.length)) b
        (.node st.heap.length) 0 (some p)) p := by
  have hreadF := readSlab_linkFresh hs (some st.heap.length) b
  have hslot0 : emptySlab.slots[0]? = some none := by decide
  have hlen2 : (setNext (allocSlab st).1 b c (some st.heap.length)).heap.length
      = st.heap.length + 1 := by
    rw [heapLength_setNext]
    simp [allocSlab]
  refine ⟨?_, ?_, ?_, ?_, ?_, ?_, ?_, ?_, ?_, ?_⟩
  · rw [records_writeSlot, records_setNext]
    rfl
  · rw [numBuckets_writeSlot, numBuckets_setNext]
    rfl
  · rw [dsizeKey_writeSlot, dsizeKey_setNext]
    rfl
  · rw [dsizeValue_writeSlot, dsizeValue_setNext]
    rfl
  · rw [bucketsLength_writeSlot, bucketsLength_setNext]
    rfl
  · rw [heapLength_writeSlot, hlen2]
    omega
  · rw [heapLength_writeSlot, hlen2]
  · have h1 := occupiedPtrs_writeSlot_some hreadF hslot0 p
    rw [occupiedPtrs_setNext, occupiedPtrs_allocSlab] at h1
    exact h1
  · intro h31 s' hs'
    have hlen : ∀ t : Slab, t ∈ allSlabs st ∨ t = emptySlab →
        t.slots.length = 31 := by
      rintro t (ht | rfl)
      · exact h31 _ ht
      · decide
    rcases allSlabs_writeSlot_mem hs' with h | ⟨t, ht, rfl⟩
    · rcases allSlabs_setNext_mem h with h | ⟨t, ht, rfl⟩
      · exact hlen _ (allSlabs_allocSlab_mem h)
      · show t.slots.length = 31
        exact hlen _ (allSlabs_allocSlab_mem ht)
    · rcases allSlabs_setNext_mem ht with ht | ⟨t', ht', rfl⟩
      · show (t.slots.set 0 (some p)).length = 31
        rw [List.length_set]
        exact hlen _ (allSlabs_allocSlab_mem ht)
      · show (t'.slots.set 0 (some p)).length = 31
        rw [List.length_set]
        exact hlen _ (allSlabs_allocSlab_mem ht')
  · intro hcl b' hb'
    rw [heapLength_writeSlot, hlen2, chainClosed_writeSlot]
    exact chainClosed_extendTail hs b' .head (st.heap.length + 1) (hcl b' hb')

/-- Inserting a key that matches no occupied slot of the table always
succeeds: the loop scans the bucket chain and either claims an empty slot
or extends the chain with a freshly allocated slab; the result is the
preallocated pointer with `success = true`, with `InsertShape` relating the
states.  Fuel beyond `chain length + 2` is irrelevant. -/
theorem insertLoop_freshKey {st : HState} {key : Bytes} {p b : Nat} :
    ∀ {c : Cursor} {f : Nat}, chainClosed st b c f = true →
      (∀ s ∈ allSlabs st, ∀ o ∈ s.slots, slotMatches st key o = false) →
      ∀ e, ∃ st', insertLoop st key p b c (f + 2 + e) = (st', some p, true) ∧
        InsertShape st st' p := by
  intro c f
  induction f generalizing c with
  | zero => intro hcl _ _; simp [chainClosed] at hcl
  | succ f ih =>
    intro hcl hnm e
    cases hr : readSlab st b c with
    | none =>
      simp only [chainClosed, hr] at hcl
      exact absurd hcl (by simp)
    | some s =>
      have hfk : findKeyIdx st key s.slots = none :=
        List.findIdx?_eq_none_iff.2 (fun o ho => hnm s (readSlab_mem hr) o ho)
      have hfuel : f + 1 + 2 + e = (f + 2 + e) + 1 := by omega
      rw [hfuel]
      cases hfe : findEmptyIdx s.slots with
      | some i =>
        have hi' : s.slots[i]? = some none := by
          obtain ⟨hi, hemp, -⟩ := List.findIdx?_eq_some_iff_getElem.1 hfe
          rw [List.getElem?_eq_getElem hi]
          cases hx : s.slots[i] with
          | none => rfl
          | some q => rw [hx] at hemp; simp at hemp
        refine ⟨writeSlot st b c i (some p), ?_, insertShape_write hr hi' p⟩
        simp only [insertLoop, hr, hfk, hfe]
      | none =>
        cases hn : s.next with
        | some nx =>
          have hcl' : chainClosed st b (.node nx) f = true := by
            simp only [chainClosed, hr, hn] at hcl
            exact hcl
          obtain ⟨st', heq, hshape⟩ := ih hcl' hnm e
          refine ⟨st', ?_, hshape⟩
          simp only [insertLoop, hr, hfk, hfe, hn]
          exact heq
        | none =>
          -- Branch 3.2: allocate a slab, link it, insert into its slot 0.
          have hrA : readSlab (allocSlab st).1 b c = some s :=
            readSlab_allocSlab_of_some hr
          have hread2 : readSlab
              (setNext (allocSlab st).1 b c (some st.heap.length)) b c
              = some { s with next := some st.heap.length } :=
            readSlab_setNext_same hrA (some st.heap.length)
          have hreadF := readSlab_linkFresh hr (some st.heap.length) b
          have hrec2 : (setNext (allocSlab st).1 b c
              (some st.heap.length)).records = st.records := by
            rw [records_setNext]
            rfl
          have hdk2 : (setNext (allocSlab st).1 b c
              (some st.heap.length)).dsizeKey = st.dsizeKey := by
            rw [dsizeKey_setNext]
            rfl
          have hfk2 : findKeyIdx
              (setNext (allocSlab st).1 b c (some st.heap.length)) key s.slots
              = none := by
            unfold findKeyIdx
            rw [slotMatches_congr hrec2 hdk2]
            exact hfk
          have hfkF : findKeyIdx
              (setNext (allocSlab st).1 b c (some st.heap.length)) key
              emptySlab.slots = none := findKeyIdx_emptySlab _ key
          refine ⟨writeSlot (setNext (allocSlab st).1 b c
              (some st.heap.length)) b (.node st.heap.length) 0 (some p), ?_,
            insertShape_link hr p⟩
          have ha2 : (allocSlab st).2 = st.heap.length := rfl
          have hfuel2 : f + 2 + e = (f + e + 1) + 1 := by omega
          simp only [insertLoop, hr, hfk, hfe, hn]
          rw [ha2, hfuel2]
          simp only [insertLoop, hread2, hfk2, hfe, hreadF, hfkF,
            findEmptyIdx_emptySlab]

/-! ## Pair-record allocation bookkeeping -/

theorem allocRecord_of_free {st : HState} (bytes : Bytes)
    (h : st.records.countP Option.isSome < st.records.length) :
    ∃ i, st.records[i]? = some none ∧
      allocRecord st bytes
        = some ({ st with records := st.records.set i (some bytes) }, i) := by
  have hany : st.records.any Option.isNone = true := by
    rw [List.any_eq_true]
    by_contra hall
    push_neg at hall
    have : st.records.countP Option.isSome = st.records.length :=
      List.countP_eq_length.2 (fun a ha => by
        cases a with
        | none =>
          exact absurd (by simp : Option.isNone (none : Option Bytes) = true)
            (by simpa using hall none ha)
        | some r => rfl)
    omega
  cases hfi : st.records.findIdx? Option.isNone with
  | none =>
    rw [← List.findIdx?_isSome, hfi] at hany
    simp at hany
  | some i =>
    obtain ⟨hi, hni, -⟩ := List.findIdx?_eq_some_iff_getElem.1 hfi
    refine ⟨i, ?_, ?_⟩
    · rw [List.getElem?_eq_getElem hi]
      cases hx : st.records[i] with
      | none => rfl
      | some r => rw [hx] at hni; simp at hni
    · unfold allocRecord
      rw [hfi]

theorem allocRecord_of_full {st : HState} (bytes : Bytes)
    (h : st.records.countP Option.isSome = st.records.length) :
    allocRecord st bytes = none := by
  unfold allocRecord
  have : st.records.findIdx? Option.isNone = none :=
    List.findIdx?_eq_none_iff.2 (fun o ho => by
      cases o with
      | none =>
        have := List.countP_eq_length.1 h none ho
        simp at this
      | some r => rfl)
  rw [this]

theorem countP_isSome_set {l : List (Option Bytes)} {i : Nat}
    (h : l[i]? = some none) (r : Bytes) :
    (l.set i (some r)).countP Option.isSome = l.countP Option.isSome + 1 := by
  induction l generalizing i with
  | nil => simp at h
  | cons x t ih =>
    cases i with
    | zero =>
      simp only [List.getElem?_cons_zero, Option.some.injEq] at h
      subst h
      simp [List.countP_cons]
    | succ i =>
      simp only [List.getElem?_cons_succ] at h
      simp only [List.set_cons_succ, List.countP_cons, ih h]
      omega

/-! ## The insert-only invariant (claim C1) -/

theorem insertOne_fresh {st : HState} {nb cap dk dv : Nat}
    {inserted : List Bytes} (hinv : C1Inv st nb cap dk dv inserted)
    {key value : Bytes} (hklen : key.length = dk) (hvlen : value.length = dv)
    (hnotin : key ∉ inserted) (hroom : inserted.length < cap) :
    ∃ st' p, insertOne st key value = (st', some p, true) ∧
      C1Inv st' nb cap dk dv (inserted ++ [key]) ∧
      st.records[p]? = some none ∧
      st'.records[p]? = some (some (key.take dk ++ value.take dv)) ∧
      (∀ q, q ≠ p → st'.records[q]? = st.records[q]?) := by
  obtain ⟨hwf, hnb, hdk, hdv, hcap, hcount, hkeys⟩ := hinv
  have hroom' : st.records.countP Option.isSome < st.records.length := by
    omega
  obtain ⟨p, hpfree, halloc⟩ :=
    allocRecord_of_free (key.take st.dsizeKey ++ value.take st.dsizeValue)
      hroom'
  have hplt : p < st.records.length := by
    rcases List.getElem?_eq_some.1 hpfree with ⟨hlt, -⟩
    exact hlt
  -- the state after the eager pair-record write
  have hbytes : key.take st.dsizeKey ++ value.take st.dsizeValue
      = key.take dk ++ value.take dv := by rw [hdk, hdv]
  set st1 : HState :=
    { st with records :=
        st.records.set p (some (key.take st.dsizeKey ++ value.take st.dsizeValue)) }
    with hst1
  have hfreshp : p ∉ occupiedPtrs st := by
    intro hmem
    have hok := hwf.ptrs_ok p hmem
    unfold recLenOk at hok
    rw [List.getD_eq_getElem?_getD, hpfree] at hok
    simp at hok
  -- no slot of the table matches the fresh key
  have hnomatch : ∀ s ∈ allSlabs st1, ∀ o ∈ s.slots,
      slotMatches st1 key o = false := by
    intro s hs o ho
    cases o with
    | none => rfl
    | some q =>
      have hq : q ∈ occupiedPtrs st := mem_occupiedPtrs hs ho
      have hqp : q ≠ p := fun hqp => hfreshp (hqp ▸ hq)
      have hrecq1 : st1.records.getD q none = st.records.getD q none := by
        show (st.records.set p _).getD q none = _
        rw [List.getD_eq_getElem?_getD, List.getD_eq_getElem?_getD,
          List.getElem?_set_ne (fun h => hqp h.symm)]
      obtain ⟨r, hr, hrlen⟩ : ∃ r, st.records.getD q none = some r ∧
          r.length = st.dsizeKey + st.dsizeValue := by
        have hok := hwf.ptrs_ok q hq
        unfold recLenOk at hok
        cases hx : st.records.getD q none with
        | none => rw [hx] at hok; simp at hok
        | some r =>
          rw [hx] at hok
          exact ⟨r, rfl, by simpa using hok⟩
      have hdk1 : st1.dsizeKey = st.dsizeKey := rfl
      show slotMatches st1 key (some q) = false
      simp only [slotMatches, hrecq1, hr, hdk1, decide_eq_false_iff_not]
      intro heqkey
      apply hnotin
      have hmemk : (recordBytes st q).take st.dsizeKey ∈ slotKeys st :=
        List.mem_map_of_mem _ hq
      have hrb : recordBytes st q = r := by
        unfold recordBytes
        rw [hr]
        rfl
      rw [hrb] at hmemk
      have hkk : key.take st.dsizeKey = key := by
        rw [hdk, ← hklen]
        exact List.take_length _
      rw [heqkey, hkk] at hmemk
      exact (hkeys.mem_iff).1 hmemk
  -- chains of st1 are those of st
  have hcl1 : ∀ b', b' < st1.numBuckets →
      chainClosed st1 b' .head (st1.heap.length + 1) = true := by
    intro b' hb'
    have hcc : ∀ (c : Cursor) (f : Nat),
        chainClosed st1 b' c f = chainClosed st b' c f :=
      chainClosed_congr (fun c => rfl)
    rw [hcc]
    exact hwf.closed b' hb'
  -- run the loop
  have hb : computeBucket st key < st.numBuckets :=
    Nat.mod_lt _ hwf.buckets_pos
  have hclb : chainClosed st1 (computeBucket st key) .head
      (st1.heap.length + 1) = true := hcl1 _ (by
        show computeBucket st key < st.numBuckets
        exact hb)
  obtain ⟨st2, hloop, hshape⟩ :=
    insertLoop_freshKey hclb hnomatch 0
  have hfuel : st.heap.length + 3 = st1.heap.length + 1 + 2 + 0 := by
    show st.heap.length + 3 = st.heap.length + 1 + 2 + 0
    omega
  have hrun : insertOne st key value = (st2, some p, true) := by
    unfold insertOne insertOneWith
    rw [halloc, hfuel]
    exact hloop
  -- records of the result state
  have hrec2 : st2.records = st1.records := hshape.recs
  have hpset1 : st1.records[p]? = some (some (key.take dk ++ value.take dv)) := by
    show (st.records.set p _)[p]? = _
    rw [List.getElem?_set_self hplt, hbytes]
  have hother1 : ∀ q, q ≠ p → st1.records[q]? = st.records[q]? := by
    intro q hq
    show (st.records.set p _)[q]? = _
    rw [List.getElem?_set_ne (fun h => hq h.symm)]
  refine ⟨st2, p, hrun, ?_, hpfree, by rw [hrec2]; exact hpset1,
    fun q hq => by rw [hrec2]; exact hother1 q hq⟩
  -- rebuild the invariant
  have hocc2 : occupiedPtrs st2 ~ p :: occupiedPtrs st := by
    have h1 := hshape.occ
    have : occupiedPtrs st1 = occupiedPtrs st := rfl
    rw [this] at h1
    exact h1
  have hlen2 : st2.records.length = st.records.length := by
    rw [hrec2]
    show (st.records.set p _).length = _
    rw [List.length_set]
  have hdk2 : st2.dsizeKey = dk := by rw [hshape.dk]; exact hdk
  have hdv2 : st2.dsizeValue = dv := by rw [hshape.dv]; exact hdv
  have hnb2 : st2.numBuckets = nb := by rw [hshape.nb]; exact hnb
  have hrecq : ∀ q ∈ occupiedPtrs st, st2.records.getD q none
      = st.records.getD q none := by
    intro q hqmem
    have hqp : q ≠ p := fun h => hfreshp (h ▸ hqmem)
    rw [List.getD_eq_getElem?_getD, List.getD_eq_getElem?_getD, hrec2,
      hother1 q hqp]
  refine ⟨⟨?_, ?_, ?_, ?_, ?_, ?_, ?_⟩, hnb2, hdk2, hdv2, ?_, ?_, ?_⟩
  · rw [hnb2, ← hnb]
    exact hwf.buckets_pos
  · rw [hshape.blen, hshape.nb]
    exact hwf.buckets_len
  · exact hshape.slots31 (fun s hs => hwf.slots_len s hs)
  · intro b' hb'
    apply hshape.closedAll hcl1
    show b' < st.numBuckets
    rw [← hshape.nb]
    exact hb'
  · intro q hq
    rw [hlen2]
    rcases List.mem_cons.1 ((hocc2.mem_iff).1 hq) with rfl | hq'
    · exact hplt
    · exact hwf.ptrs_lt q hq'
  · intro q hq
    unfold recLenOk
    rcases List.mem_cons.1 ((hocc2.mem_iff).1 hq) with rfl | hq'
    · rw [List.getD_eq_getElem?_getD, hrec2, hpset1]
      have : (key.take dk ++ value.take dv).length = st2.dsizeKey + st2.dsizeValue := by
        rw [List.length_append, List.length_take, List.length_take, hklen,
          hvlen, hdk2, hdv2]
        omega
      simp [this]
    · have hok := hwf.ptrs_ok q hq'
      unfold recLenOk at hok
      rw [hrecq q hq']
      cases hx : st.records.getD q none with
      | none => rw [hx] at hok; simp at hok
      | some r =>
        rw [hx] at hok
        rw [hshape.dk, hshape.dv]
        show decide (r.length = st1.dsizeKey + st1.dsizeValue) = true
        exact hok
  · apply hocc2.symm.nodup
    exact List.Nodup.cons hfreshp hwf.ptrs_nodup
  · rw [hlen2]
    exact hcap
  · rw [hrec2]
    show (st.records.set p _).countP Option.isSome = _
    rw [countP_isSome_set hpfree, hcount, List.length_append]
    rfl
  · -- stored keys: the new multiset is `inserted ++ [key]`
    have hmap : slotKeys st2 ~ (p :: occupiedPtrs st).map
        (fun q => (recordBytes st2 q).take st2.dsizeKey) := by
      unfold slotKeys
      exact hocc2.map _
    have hhead : (recordBytes st2 p).take st2.dsizeKey = key := by
      unfold recordBytes
      rw [List.getD_eq_getElem?_getD, hrec2, hpset1]
      show (key.take dk ++ value.take dv).take st2.dsizeKey = key
      rw [hdk2]
      rw [List.take_left' (by rw [List.length_take, hklen]; omega)]
      rw [← hklen]
      exact List.take_length _
    have htail : (occupiedPtrs st).map
        (fun q => (recordBytes st2 q).take st2.dsizeKey) = slotKeys st := by
      unfold slotKeys
      apply List.map_congr_left
      intro q hqmem
      unfold recordBytes
      rw [List.getD_eq_getElem?_getD, ← List.getD_eq_getElem?_getD,
        hrecq q hqmem, hshape.dk]
    calc slotKeys st2
        ~ key :: slotKeys st := by
          rw [List.map_cons, hhead] at hmap
          rw [htail] at hmap
          exact hmap
      _ ~ key :: inserted := hkeys.cons key
      _ ~ inserted ++ [key] := (List.perm_append_singleton key inserted).symm

theorem C1Inv_freshTable {nb cap dk dv : Nat} (hnb : 0 < nb) :
    C1Inv (freshTable nb cap dk dv) nb cap dk dv [] := by
  have hocc : occupiedPtrs (freshTable nb cap dk dv) = [] := by
    show ptrsOf (List.replicate nb emptySlab) ++ ptrsOf [] = []
    unfold ptrsOf
    rw [List.map_replicate, slabPtrs_emptySlab]
    simp
  refine ⟨⟨hnb, by simp [freshTable], ?_, ?_, ?_, ?_, ?_⟩, rfl, rfl, rfl,
    by simp [freshTable], ?_, ?_⟩
  · intro s hs
    rcases List.mem_append.1 hs with h | h
    · rw [List.eq_of_mem_replicate h]
      decide
    · simp [freshTable] at h
  · intro b hb
    have hrd : readSlab (freshTable nb cap dk dv) b .head = some emptySlab := by
      show (List.replicate nb emptySlab)[b]? = some emptySlab
      exact List.getElem?_replicate_of_lt hb
    simp only [chainClosed, hrd, emptySlab]
  · intro q hq
    rw [hocc] at hq
    simp at hq
  · intro q hq
    rw [hocc] at hq
    simp at hq
  · rw [hocc]
    exact List.nodup_nil
  · show (List.replicate cap (none : Option Bytes)).countP Option.isSome = 0
    rw [List.countP_eq_zero]
    intro a ha
    rw [List.eq_of_mem_replicate ha]
    simp
  · unfold slotKeys
    rw [hocc]
    exact .refl _

theorem insertBatch_fresh {nb cap dk dv : Nat} :
    ∀ (pairs : List (Bytes × Bytes)) (st : HState) (inserted : List Bytes),
      C1Inv st nb cap dk dv inserted →
      inserted.length + pairs.length ≤ cap →
      (∀ pr ∈ pairs, (pr.1 : Bytes).length = dk ∧ (pr.2 : Bytes).length = dv) →
      ((pairs.map Prod.fst) ++ inserted).Nodup →
      (∀ o ∈ (insertBatch st pairs).2, o.1.isSome = true ∧ o.2 = true) ∧
      ((insertBatch st pairs).2.map Prod.fst).Nodup ∧
      (∀ q, (st.records.getD q none).isSome = true →
        some q ∉ (insertBatch st pairs).2.map Prod.fst) ∧
      C1Inv (insertBatch st pairs).1 nb cap dk dv
        (inserted ++ pairs.map Prod.fst) := by
  intro pairs
  induction pairs with
  | nil =>
    intro st inserted hinv _ _ _
    refine ⟨by simp [insertBatch], by simp [insertBatch],
      by simp [insertBatch], ?_⟩
    simpa [insertBatch] using hinv
  | cons pr rest ih =>
    intro st inserted hinv hroom hlens hnodup
    obtain ⟨k, v⟩ := pr
    have hklen : k.length = dk := (hlens (k, v) (List.mem_cons_self _ _)).1
    have hvlen : v.length = dv := (hlens (k, v) (List.mem_cons_self _ _)).2
    have hnodup0 : (k :: (rest.map Prod.fst ++ inserted)).Nodup := hnodup
    have hknotin : k ∉ inserted := fun hk =>
      (List.nodup_cons.1 hnodup0).1 (List.mem_append_right _ hk)
    obtain ⟨st', p, hrun, hinv', hpfree, hpset, hother⟩ :=
      insertOne_fresh hinv hklen hvlen hknotin (by simp at hroom; omega)
    have hbatch : insertBatch st ((k, v) :: rest)
        = ((insertBatch st' rest).1,
           (some p, true) :: (insertBatch st' rest).2) := by
      show (let r := insertOne st k v
            let rr := insertBatch r.1 rest
            (rr.1, r.2 :: rr.2)) = _
      rw [hrun]
    have hperm : rest.map Prod.fst ++ (inserted ++ [k])
        ~ k :: (rest.map Prod.fst ++ inserted) :=
      ((List.perm_append_singleton k inserted).append_left _).trans
        List.perm_middle
    have hnodup' : ((rest.map Prod.fst) ++ (inserted ++ [k])).Nodup :=
      hperm.symm.nodup hnodup0
    obtain ⟨hall, hnd, hfreshiters, hinvfin⟩ :=
      ih st' (inserted ++ [k]) hinv'
        (by simp at hroom ⊢; omega)
        (fun q hq => hlens q (List.mem_cons_of_mem _ hq))
        hnodup'
    have hpsome : (st'.records.getD p none).isSome = true := by
      rw [List.getD_eq_getElem?_getD, hpset]
      rfl
    refine ⟨?_, ?_, ?_, ?_⟩
    · intro o ho
      rw [hbatch] at ho
      rcases List.mem_cons.1 ho with rfl | ho
      · exact ⟨rfl, rfl⟩
      · exact hall o ho
    · rw [hbatch]
      simp only [List.map_cons]
      exact List.Nodup.cons (hfreshiters p hpsome) hnd
    · intro q hq
      rw [hbatch]
      simp only [List.map_cons, List.mem_cons]
      rintro (hqq | hqq)
      · have : q = p := by simpa using hqq
        subst this
        rw [List.getD_eq_getElem?_getD, hpfree] at hq
        simp at hq
      · have hqp : q ≠ p := by
          intro h
          subst h
          rw [List.getD_eq_getElem?_getD, hpfree] at hq
          simp at hq
        apply hfreshiters q _ hqq
        rw [List.getD_eq_getElem?_getD, hother q hqp,
          ← List.getD_eq_getElem?_getD]
        exact hq
    · rw [hbatch]
      have : inserted ++ (List.map Prod.fst ((k, v) :: rest))
          = (inserted ++ [k]) ++ rest.map Prod.fst := by
        simp
      rw [this]
      exact hinvfin

/-- **C1**: for every sequence of `N` distinct keys inserted once each into
a freshly constructed table (`N` at most the table's maximum key-value
capacity), every `Insert` reports `success = true` and returns an iterator
distinct from every other returned iterator, and at every point of the
sequence no two occupied data slots in the whole table reference pair
records with equal key bytes. -/
theorem c1_insert_distinct_keys (nb cap dk dv : Nat) (hnb : 0 < nb)
    (pairs : List (Bytes × Bytes)) (hcap : pairs.length ≤ cap)
    (hdistinct : (pairs.map Prod.fst).Nodup)
    (hlens : ∀ pr ∈ pairs,
      (pr.1 : Bytes).length = dk ∧ (pr.2 : Bytes).length = dv) :
    (∀ o ∈ (insertBatch (freshTable nb cap dk dv) pairs).2,
      o.1.isSome = true ∧ o.2 = true) ∧
    ((insertBatch (freshTable nb cap dk dv) pairs).2.map Prod.fst).Nodup ∧
    (∀ n, keyUnique (insertBatch (freshTable nb cap dk dv) (pairs.take n)).1) := by
  have hstep : ∀ n,
      (∀ o ∈ (insertBatch (freshTable nb cap dk dv) (pairs.take n)).2,
        o.1.isSome = true ∧ o.2 = true) ∧
      ((insertBatch (freshTable nb cap dk dv) (pairs.take n)).2.map
        Prod.fst).Nodup ∧
      C1Inv (insertBatch (freshTable nb cap dk dv) (pairs.take n)).1
        nb cap dk dv ([] ++ (pairs.take n).map Prod.fst) := by
    intro n
    obtain ⟨h1, h2, h3, h4⟩ := insertBatch_fresh (pairs.take n)
      (freshTable nb cap dk dv) [] (C1Inv_freshTable hnb)
      (by simp [List.length_take]; omega)
      (fun q hq => hlens q ((List.take_sublist n pairs).subset hq))
      (by
        rw [List.append_nil, List.map_take]
        exact (List.take_sublist n (pairs.map Prod.fst)).nodup hdistinct)
    exact ⟨h1, h2, h4⟩
  refine ⟨?_, ?_, ?_⟩
  · have h := (hstep pairs.length).1
    rwa [List.take_length] at h
  · have h := (hstep pairs.length).2.1
    rwa [List.take_length] at h
  · intro n
    have hinv := (hstep n).2.2
    have hrhs : (([] : List Bytes) ++ (pairs.take n).map Prod.fst).Nodup := by
      rw [List.nil_append, List.map_take]
      exact (List.take_sublist n (pairs.map Prod.fst)).nodup hdistinct
    exact hinv.hkeys.symm.nodup hrhs

theorem c1_insert_distinct_keys_witness :
    (∀ o ∈ (insertBatch (freshTable 2 4 4 4) c1Pairs).2,
      o.1.isSome = true ∧ o.2 = true) ∧
    ((insertBatch (freshTable 2 4 4 4) c1Pairs).2.map Prod.fst).Nodup ∧
    (∀ n, keyUnique (insertBatch (freshTable 2 4 4 4) (c1Pairs.take n)).1) :=
  c1_insert_distinct_keys 2 4 4 4 (by decide) c1Pairs (by decide) (by decide)
    (by decide)

/-! ## Claim C8: the hash function -/

/-- **C8**: `ComputeBucket` is deterministic and a pure function of the key
bytes: for every key it equals the FNV-style accumulation over the key's
4-byte words reduced modulo the bucket count.  (Determinism and purity are
immediate from this equation: the right-hand side depends only on the key
bytes and the fixed construction parameters, so two calls on equal key
bytes always return the same bucket index.) -/
theorem c8_computeBucket_fnv (st : HState) (key : Bytes) :
    computeBucket st key
      = fnvOverWords (keyWords key st.dsizeKey) % st.numBuckets := by
  unfold computeBucket defaultHash fnvOverWords keyWords
  rw [List.foldl_map]

/-! ## Claim C10: the key-broadcast buffer stays in bounds -/

/-- **C10**: under the precondition `keyByteSize ≤ 32` (`MAX_KEY_BYTESIZE`),
every byte offset written by the `WarpSyncKey` group-wide key broadcast
(shared by `Insert`, `Search` and `Remove`) stays within the fixed 32-byte
per-lane `src_key` buffer. -/
theorem c10_warpSyncKey_in_bounds (dsizeKey : Nat)
    (h : dsizeKey ≤ MAX_KEY_BYTESIZE) :
    ∀ j ∈ warpSyncKeyWrites dsizeKey, j < MAX_KEY_BYTESIZE := by
  intro j hj
  unfold warpSyncKeyWrites at hj
  rw [List.mem_range] at hj
  unfold MAX_KEY_BYTESIZE at h ⊢
  have hdiv : dsizeKey / 4 * 4 ≤ dsizeKey := Nat.div_mul_le_self dsizeKey 4
  omega

theorem c10_warpSyncKey_in_bounds_witness :
    32 ≤ MAX_KEY_BYTESIZE ∧
    ∀ j ∈ warpSyncKeyWrites 32, j < MAX_KEY_BYTESIZE :=
  ⟨by decide, c10_warpSyncKey_in_bounds 32 (by decide)⟩

/-! ## General behaviour of the loops on arbitrary well-formed states -/

/-- On any state with a terminating chain the insert loop is insensitive to
extra fuel and ends either in the duplicate-abort branch (freeing the
preallocated record) or in a successful claim of the preallocated
pointer. -/
theorem insertLoop_general {st : HState} {key : Bytes} {p b : Nat} :
    ∀ {c : Cursor} {f : Nat}, chainClosed st b c f = true → ∀ e,
      insertLoop st key p b c (f + 2 + e) = insertLoop st key p b c (f + 2) ∧
      (insertLoop st key p b c (f + 2) = (freeRecord st p, none, false) ∨
       ∃ st', insertLoop st key p b c (f + 2) = (st', some p, true) ∧
         InsertShape st st' p) := by
  intro c f
  induction f generalizing c with
  | zero => intro hcl _; simp [chainClosed] at hcl
  | succ f ih =>
    intro hcl e
    cases hr : readSlab st b c with
    | none =>
      simp only [chainClosed, hr] at hcl
      exact absurd hcl (by simp)
    | some s =>
      have hfa : f + 1 + 2 + e = (f + 2 + e) + 1 := by omega
      have hfb : f + 1 + 2 = (f + 2) + 1 := by omega
      rw [hfa, hfb]
      cases hfk : findKeyIdx st key s.slots with
      | some i =>
        refine ⟨?_, .inl ?_⟩ <;> simp only [insertLoop, hr, hfk]
      | none =>
        cases hfe : findEmptyIdx s.slots with
        | some i =>
          have hi' : s.slots[i]? = some none := by
            obtain ⟨hi, hemp, -⟩ := List.findIdx?_eq_some_iff_getElem.1 hfe
            rw [List.getElem?_eq_getElem hi]
            cases hx : s.slots[i] with
            | none => rfl
            | some q => rw [hx] at hemp; simp at hemp
          refine ⟨?_, .inr ⟨writeSlot st b c i (some p), ?_,
            insertShape_write hr hi' p⟩⟩ <;>
            simp only [insertLoop, hr, hfk, hfe]
        | none =>
          cases hn : s.next with
          | some nx =>
            have hcl' : chainClosed st b (.node nx) f = true := by
              simp only [chainClosed, hr, hn] at hcl
              exact hcl
            obtain ⟨hstab, hout⟩ := ih hcl' e
            constructor
            · simp only [insertLoop, hr, hfk, hfe, hn]
              exact hstab
            · simp only [insertLoop, hr, hfk, hfe, hn]
              exact hout
          | none =>
            have hrA : readSlab (allocSlab st).1 b c = some s :=
              readSlab_allocSlab_of_some hr
            have hread2 : readSlab
                (setNext (allocSlab st).1 b c (some st.heap.length)) b c
                = some { s with next := some st.heap.length } :=
              readSlab_setNext_same hrA (some st.heap.length)
            have hreadF := readSlab_linkFresh hr (some st.heap.length) b
            have hrec2 : (setNext (allocSlab st).1 b c
                (some st.heap.length)).records = st.records := by
              rw [records_setNext]
              rfl
            have hdk2 : (setNext (allocSlab st).1 b c
                (some st.heap.length)).dsizeKey = st.dsizeKey := by
              rw [dsizeKey_setNext]
              rfl
            have hfk2 : findKeyIdx
                (setNext (allocSlab st).1 b c (some st.heap.length)) key
                s.slots = none := by
              unfold findKeyIdx
              rw [slotMatches_congr hrec2 hdk2]
              exact hfk
            have hfkF : findKeyIdx
                (setNext (allocSlab st).1 b c (some st.heap.length)) key
                emptySlab.slots = none := findKeyIdx_emptySlab _ key
            have ha2 : (allocSlab st).2 = st.heap.length := rfl
            constructor
            · rw [show f + 2 + e = (f + e) + 2 from by omega]
              simp only [insertLoop, hr, hfk, hfe, hn, ha2, hread2, hfk2,
                hreadF, hfkF, findEmptyIdx_emptySlab]
            · refine .inr ⟨_, ?_, insertShape_link hr p⟩
              simp only [insertLoop, hr, hfk, hfe, hn, ha2, hread2, hfk2,
                hreadF, hfkF, findEmptyIdx_emptySlab]

/-- Fuel beyond the chain length is irrelevant to the remove loop. -/
theorem removeLoop_stable {st : HState} {key : Bytes} {b : Nat} :
    ∀ {c : Cursor} {f : Nat}, chainClosed st b c f = true →
      ∀ g, f ≤ g → removeLoop st key b c g = removeLoop st key b c f := by
  intro c f
  induction f generalizing c with
  | zero => intro hcl _ _; simp [chainClosed] at hcl
  | succ f ih =>
    intro hcl g hfg
    obtain ⟨g', rfl⟩ : ∃ g', g = g' + 1 := ⟨g - 1, by omega⟩
    cases hr : readSlab st b c with
    | none =>
      simp only [chainClosed, hr] at hcl
      exact absurd hcl (by simp)
    | some s =>
      cases hfk : findKeyIdx st key s.slots with
      | some i => simp only [removeLoop, hr, hfk]
      | none =>
        cases hn : s.next with
        | none => simp only [removeLoop, hr, hfk, hn]
        | some nx =>
          simp only [removeLoop, hr, hfk, hn]
          apply ih
          · simp only [chainClosed, hr, hn] at hcl
            exact hcl
          · omega

/-- On any state with a terminating chain, one remove request either leaves
the table unchanged and fails, or clears exactly one occupied slot and
frees the record it referenced. -/
theorem removeLoop_outcome {st : HState} {key : Bytes} {b : Nat} :
    ∀ {c : Cursor} {f : Nat}, chainClosed st b c f = true →
      removeLoop st key b c f = (st, false) ∨
      ∃ c' s i p, readSlab st b c' = some s ∧ s.slots[i]? = some (some p) ∧
        removeLoop st key b c f
          = (freeRecord (writeSlot st b c' i none) p, true) := by
  intro c f
  induction f generalizing c with
  | zero => intro hcl; simp [chainClosed] at hcl
  | succ f ih =>
    intro hcl
    cases hr : readSlab st b c with
    | none =>
      simp only [chainClosed, hr] at hcl
      exact absurd hcl (by simp)
    | some s =>
      cases hfk : findKeyIdx st key s.slots with
      | some i =>
        obtain ⟨hi, -, -⟩ := List.findIdx?_eq_some_iff_getElem.1 hfk
        cases hx : s.slots.getD i none with
        | none =>
          left
          simp only [removeLoop, hr, hfk, hx]
        | some p =>
          right
          refine ⟨c, s, i, p, hr, ?_, ?_⟩
          · rw [List.getD_eq_getElem?_getD, List.getElem?_eq_getElem hi] at hx
            rw [List.getElem?_eq_getElem hi]
            simpa using hx
          · simp only [removeLoop, hr, hfk, hx]
      | none =>
        cases hn : s.next with
        | none =>
          left
          simp only [removeLoop, hr, hfk, hn]
        | some nx =>
          have hcl' : chainClosed st b (.node nx) f = true := by
            simp only [chainClosed, hr, hn] at hcl
            exact hcl
          rcases ih hcl' with h | ⟨c', s', i, p, hrs, hip, heq⟩
          · left
            simp only [removeLoop, hr, hfk, hn]
            exact h
          · right
            refine ⟨c', s', i, p, hrs, hip, ?_⟩
            simp only [removeLoop, hr, hfk, hn]
            exact heq

/-! ## Well-formedness preservation -/

theorem WF_of_insertShape {st1 st' : HState} {p : Nat}
    (hshape : InsertShape st1 st' p) (hwf1 : WF st1)
    (hplt : p < st1.records.length) (hpok : recLenOk st1 p = true)
    (hpfresh : p ∉ occupiedPtrs st1) : WF st' := by
  refine ⟨?_, ?_, ?_, ?_, ?_, ?_, ?_⟩
  · rw [hshape.nb]
    exact hwf1.buckets_pos
  · rw [hshape.blen, hshape.nb]
    exact hwf1.buckets_len
  · exact hshape.slots31 hwf1.slots_len
  · intro b' hb'
    apply hshape.closedAll hwf1.closed
    rw [← hshape.nb]
    exact hb'
  · intro q hq
    rw [hshape.recs]
    rcases List.mem_cons.1 (hshape.occ.mem_iff.1 hq) with rfl | hq'
    · exact hplt
    · exact hwf1.ptrs_lt q hq'
  · intro q hq
    have hrl : recLenOk st' q = recLenOk st1 q := by
      unfold recLenOk
      rw [hshape.recs, hshape.dk, hshape.dv]
    rw [hrl]
    rcases List.mem_cons.1 (hshape.occ.mem_iff.1 hq) with rfl | hq'
    · exact hpok
    · exact hwf1.ptrs_ok q hq'
  · exact hshape.occ.symm.nodup (List.Nodup.cons hpfresh hwf1.ptrs_nodup)

theorem WF_allocWrite {st : HState} (hwf : WF st) {p : Nat}
    (hpfree : st.records[p]? = some none) (bytes : Bytes)
    (hblen : bytes.length = st.dsizeKey + st.dsizeValue) :
    (WF { st with records := st.records.set p (some bytes) } ∧
      p ∉ occupiedPtrs st) ∧
      recLenOk { st with records := st.records.set p (some bytes) } p
        = true := by
  have hplt : p < st.records.length := by
    rcases List.getElem?_eq_some.1 hpfree with ⟨hlt, -⟩
    exact hlt
  have hpfresh : p ∉ occupiedPtrs st := by
    intro hmem
    have hok := hwf.ptrs_ok p hmem
    unfold recLenOk at hok
    rw [List.getD_eq_getElem?_getD, hpfree] at hok
    simp at hok
  have hoccEq : occupiedPtrs { st with records := st.records.set p (some bytes) }
      = occupiedPtrs st := rfl
  refine ⟨⟨⟨hwf.buckets_pos, hwf.buckets_len, hwf.slots_len, ?_, ?_, ?_, ?_⟩,
    hpfresh⟩, ?_⟩
  · intro b' hb'
    have hcc : ∀ (c : Cursor) (f : Nat),
        chainClosed { st with records := st.records.set p (some bytes) } b' c f
          = chainClosed st b' c f :=
      chainClosed_congr (fun c => rfl)
    rw [hcc]
    exact hwf.closed b' hb'
  · intro q hq
    rw [hoccEq] at hq
    show q < (st.records.set p (some bytes)).length
    rw [List.length_set]
    exact hwf.ptrs_lt q hq
  · intro q hq
    rw [hoccEq] at hq
    have hqp : q ≠ p := fun h => hpfresh (h ▸ hq)
    have hok := hwf.ptrs_ok q hq
    unfold recLenOk at hok ⊢
    show (match (st.records.set p (some bytes)).getD q none with
      | none => false
      | some r => decide (r.length = st.dsizeKey + st.dsizeValue)) = true
    rw [List.getD_eq_getElem?_getD,
      List.getElem?_set_ne (fun h => hqp h.symm),
      ← List.getD_eq_getElem?_getD]
    exact hok
  · rw [hoccEq]
    exact hwf.ptrs_nodup
  · unfold recLenOk
    show (match (st.records.set p (some bytes)).getD p none with
      | none => false
      | some r => decide (r.length = st.dsizeKey + st.dsizeValue)) = true
    rw [List.getD_eq_getElem?_getD, List.getElem?_set_self hplt]
    simp [hblen]

theorem WF_remove_shape {st : HState} (hwf : WF st) {b : Nat} {c' : Cursor}
    {s : Slab} {i p : Nat} (hs : readSlab st b c' = some s)
    (hip : s.slots[i]? = some (some p)) :
    WF (freeRecord (writeSlot st b c' i none) p) := by
  have hperm : occupiedPtrs st ~ p :: occupiedPtrs (writeSlot st b c' i none) :=
    occupiedPtrs_writeSlot_none hs hip
  have hnodup : (p :: occupiedPtrs (writeSlot st b c' i none)).Nodup :=
    hperm.nodup hwf.ptrs_nodup
  have hpout : p ∉ occupiedPtrs (writeSlot st b c' i none) :=
    (List.nodup_cons.1 hnodup).1
  have hoccEq : occupiedPtrs (freeRecord (writeSlot st b c' i none) p)
      = occupiedPtrs (writeSlot st b c' i none) := rfl
  have hmem : ∀ q ∈ occupiedPtrs (writeSlot st b c' i none),
      q ∈ occupiedPtrs st := fun q hq =>
    hperm.mem_iff.2 (List.mem_cons_of_mem _ hq)
  refine ⟨?_, ?_, ?_, ?_, ?_, ?_, ?_⟩
  · show (writeSlot st b c' i none).numBuckets > 0
    rw [numBuckets_writeSlot]
    exact hwf.buckets_pos
  · show (writeSlot st b c' i none).buckets.length
      = (writeSlot st b c' i none).numBuckets
    rw [numBuckets_writeSlot, bucketsLength_writeSlot]
    exact hwf.buckets_len
  · intro t ht
    have htW : t ∈ allSlabs (writeSlot st b c' i none) := ht
    rcases allSlabs_writeSlot_mem htW with h | ⟨u, hu, rfl⟩
    · exact hwf.slots_len _ h
    · show (u.slots.set i none).length = 31
      rw [List.length_set]
      exact hwf.slots_len _ hu
  · intro b' hb'
    have hcc : ∀ (c : Cursor) (f : Nat),
        chainClosed (freeRecord (writeSlot st b c' i none) p) b' c f
          = chainClosed (writeSlot st b c' i none) b' c f :=
      chainClosed_congr (fun c => rfl)
    show chainClosed _ b' Cursor.head
      ((writeSlot st b c' i none).heap.length + 1) = true
    rw [hcc, chainClosed_writeSlot, heapLength_writeSlot]
    apply hwf.closed
    have hb2 : b' < (writeSlot st b c' i none).numBuckets := hb'
    rwa [numBuckets_writeSlot] at hb2
  · intro q hq
    rw [hoccEq] at hq
    show q < ((writeSlot st b c' i none).records.set p none).length
    rw [List.length_set, records_writeSlot]
    exact hwf.ptrs_lt q (hmem q hq)
  · intro q hq
    rw [hoccEq] at hq
    have hqp : q ≠ p := fun h => hpout (h ▸ hq)
    have hok := hwf.ptrs_ok q (hmem q hq)
    unfold recLenOk at hok ⊢
    show (match ((writeSlot st b c' i none).records.set p none).getD q none with
      | none => false
      | some r => decide (r.length
          = (freeRecord (writeSlot st b c' i none) p).dsizeKey
            + (freeRecord (writeSlot st b c' i none) p).dsizeValue)) = true
    rw [List.getD_eq_getElem?_getD,
      List.getElem?_set_ne (fun h => hqp h.symm), records_writeSlot,
      ← List.getD_eq_getElem?_getD]
    show (match st.records.getD q none with
      | none => false
      | some r => decide (r.length
          = (writeSlot st b c' i none).dsizeKey
            + (writeSlot st b c' i none).dsizeValue)) = true
    rw [dsizeKey_writeSlot, dsizeValue_writeSlot]
    exact hok
  · rw [hoccEq]
    exact (List.nodup_cons.1 hnodup).2

/-- General `Insert` request: well-formedness is preserved, the table
parameters are unchanged, and the loop's result does not depend on fuel
beyond the wrapper's budget (the loop terminates). -/
theorem insertOne_WF {st : HState} (hwf : WF st) {key value : Bytes}
    (hklen : key.length = st.dsizeKey) (hvlen : value.length = st.dsizeValue) :
    WF (insertOne st key value).1 ∧
    (insertOne st key value).1.dsizeKey = st.dsizeKey ∧
    (insertOne st key value).1.dsizeValue = st.dsizeValue ∧
    (∀ e, insertOneWith st key value (st.heap.length + 3 + e)
      = insertOne st key value) := by
  cases hfi : st.records.findIdx? Option.isNone with
  | none =>
    have halloc : allocRecord st
        (key.take st.dsizeKey ++ value.take st.dsizeValue) = none := by
      unfold allocRecord
      rw [hfi]
    have hrun : ∀ g, insertOneWith st key value g = (st, none, false) := by
      intro g
      unfold insertOneWith
      rw [halloc]
    refine ⟨?_, ?_, ?_, ?_⟩
    · rw [show insertOne st key value = (st, none, false) from hrun _]
      exact hwf
    · rw [show insertOne st key value = (st, none, false) from hrun _]
    · rw [show insertOne st key value = (st, none, false) from hrun _]
    · intro e
      rw [hrun, show insertOne st key value = (st, none, false) from hrun _]
  | some p =>
    obtain ⟨hi, hni, -⟩ := List.findIdx?_eq_some_iff_getElem.1 hfi
    have hpfree : st.records[p]? = some none := by
      rw [List.getElem?_eq_getElem hi]
      cases hx : st.records[p] with
      | none => rfl
      | some r => rw [hx] at hni; simp at hni
    have halloc : allocRecord st
        (key.take st.dsizeKey ++ value.take st.dsizeValue)
        = some ({ st with
                  records := st.records.set p
                    (some (key.take st.dsizeKey ++ value.take st.dsizeValue))
                }, p) := by
      unfold allocRecord
      rw [hfi]
    have hblen : (key.take st.dsizeKey ++ value.take st.dsizeValue).length
        = st.dsizeKey + st.dsizeValue := by
      rw [List.length_append, List.length_take, List.length_take, hklen,
        hvlen]
      omega
    obtain ⟨⟨hwf1, hpfresh⟩, hpok⟩ := WF_allocWrite hwf hpfree _ hblen
    set st1 : HState :=
      { st with records :=
          st.records.set p (some (key.take st.dsizeKey ++ value.take st.dsizeValue)) }
      with hst1
    have hb : computeBucket st key < st.numBuckets :=
      Nat.mod_lt _ hwf.buckets_pos
    have hclb : chainClosed st1 (computeBucket st key) .head
        (st1.heap.length + 1) = true := by
      have hcc : ∀ (c : Cursor) (f : Nat),
          chainClosed st1 (computeBucket st key) c f
            = chainClosed st (computeBucket st key) c f :=
        chainClosed_congr (fun c => rfl)
      rw [hcc]
      exact hwf.closed _ hb
    have hplt1 : p < st1.records.length := by
      show p < (st.records.set p _).length
      rw [List.length_set]
      rcases List.getElem?_eq_some.1 hpfree with ⟨hlt, -⟩
      exact hlt
  -- run the loop with enough fuel
    have hfuel : ∀ e, st.heap.length + 3 + e = st1.heap.length + 1 + 2 + e := by
      intro e
      show st.heap.length + 3 + e = st.heap.length + 1 + 2 + e
      omega
    have hgen := fun e => @insertLoop_general st1 key p
      (computeBucket st key) Cursor.head (st1.heap.length + 1) hclb e
    have hstab : ∀ e, insertOneWith st key value (st.heap.length + 3 + e)
        = insertOne st key value := by
      intro e
      unfold insertOne insertOneWith
      rw [halloc, hfuel e, hfuel 0]
      exact (hgen e).1
    have hout := (hgen 0).2
    have hres : insertOne st key value
        = insertLoop st1 key p (computeBucket st key) .head
            (st1.heap.length + 1 + 2) := by
      unfold insertOne insertOneWith
      rw [halloc, hfuel 0]
    rcases hout with hdup | ⟨st', heq, hshape⟩
    · have hdupst : freeRecord st1 p = st := by
        show ({ st with records := (st.records.set p _).set p none } : HState)
          = st
        rw [List.set_set, set_self_of_getElem? hpfree]
      have : insertOne st key value = (st, none, false) := by
        rw [hres, hdup, hdupst]
      refine ⟨?_, ?_, ?_, hstab⟩ <;> rw [this]
      exact hwf
    · have : insertOne st key value = (st', some p, true) := by
        rw [hres, heq]
      refine ⟨?_, ?_, ?_, hstab⟩ <;> rw [this]
      · exact WF_of_insertShape hshape hwf1 hplt1 hpok hpfresh
      · exact hshape.dk
      · exact hshape.dv

/-- General `Remove` request: well-formedness is preserved, the table
parameters are unchanged, and the loop terminates within the wrapper's
fuel budget. -/
theorem removeOne_WF {st : HState} (hwf : WF st) (key : Bytes) :
    WF (removeOne st key).1 ∧
    (removeOne st key).1.dsizeKey = st.dsizeKey ∧
    (removeOne st key).1.dsizeValue = st.dsizeValue ∧
    (∀ e, removeOneWith st key (st.heap.length + 1 + e)
      = removeOne st key) := by
  have hb : computeBucket st key < st.numBuckets :=
    Nat.mod_lt _ hwf.buckets_pos
  have hcl := hwf.closed _ hb
  have hstab : ∀ e, removeOneWith st key (st.heap.length + 1 + e)
      = removeOne st key := by
    intro e
    unfold removeOne removeOneWith
    exact removeLoop_stable hcl _ (by omega)
  rcases removeLoop_outcome hcl with h | ⟨c', s, i, p, hrs, hip, heq⟩
  · have : removeOne st key = (st, false) := h
    refine ⟨?_, ?_, ?_, hstab⟩ <;> rw [this]
    exact hwf
  · have : removeOne st key = (freeRecord (writeSlot st (computeBucket st key)
        c' i none) p, true) := heq
    refine ⟨?_, ?_, ?_, hstab⟩ <;> rw [this]
    · exact WF_remove_shape hwf hrs hip
    · show (writeSlot st (computeBucket st key) c' i none).dsizeKey
        = st.dsizeKey
      rw [dsizeKey_writeSlot]
    · show (writeSlot st (computeBucket st key) c' i none).dsizeValue
        = st.dsizeValue
      rw [dsizeValue_writeSlot]

/-! ## Claim C9: the batch driver resolves every request -/

theorem insertBatch_length :
    ∀ (pairs : List (Bytes × Bytes)) (st : HState),
      (insertBatch st pairs).2.length = pairs.length := by
  intro pairs
  induction pairs with
  | nil => intro st; rfl
  | cons pr rest ih =>
    intro st
    obtain ⟨k, v⟩ := pr
    show ((insertBatch (insertOne st k v).1 rest).2.length + 1) = _
    rw [ih]
    rfl

theorem removeBatch_length :
    ∀ (keys : List Bytes) (st : HState),
      (removeBatch st keys).2.length = keys.length := by
  intro keys
  induction keys with
  | nil => intro st; rfl
  | cons k rest ih =>
    intro st
    show ((removeBatch (removeOne st k).1 rest).2.length + 1) = _
    rw [ih]
    rfl

theorem insertBatchExtra_eq {dk dv : Nat} :
    ∀ (pairs : List (Bytes × Bytes)) (st : HState), WF st →
      st.dsizeKey = dk → st.dsizeValue = dv →
      (∀ pr ∈ pairs, (pr.1 : Bytes).length = dk ∧ (pr.2 : Bytes).length = dv) →
      ∀ e, insertBatchExtra e st pairs = insertBatch st pairs := by
  intro pairs
  induction pairs with
  | nil => intro st _ _ _ _ e; rfl
  | cons pr rest ih =>
    intro st hwf hdk hdv hlens e
    obtain ⟨k, v⟩ := pr
    have hkl : k.length = st.dsizeKey := by
      rw [hdk]
      exact (hlens (k, v) (List.mem_cons_self _ _)).1
    have hvl : v.length = st.dsizeValue := by
      rw [hdv]
      exact (hlens (k, v) (List.mem_cons_self _ _)).2
    obtain ⟨hwf', hdk', hdv', hstab⟩ := insertOne_WF hwf hkl hvl
    show ((insertBatchExtra e
            (insertOneWith st k v (st.heap.length + 3 + e)).1 rest).1,
          (insertOneWith st k v (st.heap.length + 3 + e)).2
            :: (insertBatchExtra e
                  (insertOneWith st k v (st.heap.length + 3 + e)).1 rest).2)
      = ((insertBatch (insertOne st k v).1 rest).1,
         (insertOne st k v).2 :: (insertBatch (insertOne st k v).1 rest).2)
    rw [hstab e, ih (insertOne st k v).1 hwf' (by rw [hdk', hdk])
      (by rw [hdv', hdv]) (fun q hq => hlens q (List.mem_cons_of_mem _ hq)) e]

theorem removeBatchExtra_eq :
    ∀ (keys : List Bytes) (st : HState), WF st →
      ∀ e, removeBatchExtra e st keys = removeBatch st keys := by
  intro keys
  induction keys with
  | nil => intro st _ e; rfl
  | cons k rest ih =>
    intro st hwf e
    obtain ⟨hwf', -, -, hstab⟩ := removeOne_WF hwf k
    show ((removeBatchExtra e
            (removeOneWith st k (st.heap.length + 1 + e)).1 rest).1,
          (removeOneWith st k (st.heap.length + 1 + e)).2
            :: (removeBatchExtra e
                  (removeOneWith st k (st.heap.length + 1 + e)).1 rest).2)
      = ((removeBatch (removeOne st k).1 rest).1,
         (removeOne st k).2 :: (removeBatch (removeOne st k).1 rest).2)
    rw [hstab e, ih (removeOne st k).1 hwf' e]

/-- **C9**: every batch `Insert`, `Search`, or `Remove` processes all `N`
requests to completion before returning: exactly one output mask (and, for
`Insert` / `Search`, one output iterator) is produced per request, and each
request's traversal loop terminates — running every loop with arbitrary
extra fuel beyond the wrapper's budget changes nothing. -/
theorem c9_batch_complete (st : HState) (hwf : WF st)
    (pairs : List (Bytes × Bytes)) (skeys rkeys : List Bytes)
    (hlens : ∀ pr ∈ pairs, (pr.1 : Bytes).length = st.dsizeKey ∧
      (pr.2 : Bytes).length = st.dsizeValue) :
    (insertBatch st pairs).2.length = pairs.length ∧
    (searchBatch st skeys).length = skeys.length ∧
    (removeBatch st rkeys).2.length = rkeys.length ∧
    (∀ e, insertBatchExtra e st pairs = insertBatch st pairs) ∧
    (∀ e, searchBatchExtra e st skeys = searchBatch st skeys) ∧
    (∀ e, removeBatchExtra e st rkeys = removeBatch st rkeys) := by
  refine ⟨insertBatch_length pairs st, List.length_map ..,
    removeBatch_length rkeys st,
    insertBatchExtra_eq pairs st hwf rfl rfl hlens, ?_,
    removeBatchExtra_eq rkeys st hwf⟩
  intro e
  unfold searchBatchExtra searchBatch
  apply List.map_congr_left
  intro k _
  have hb : computeBucket st k < st.numBuckets :=
    Nat.mod_lt _ hwf.buckets_pos
  unfold searchOne searchOneWith
  exact searchLoop_stable (hwf.closed _ hb) _ (by omega)

/-! ## The duplicate-key scenario (claims C2, C3, C4)

`Insert` consults only the slab currently under the cursor before claiming
an empty slot (Branch 2 fires as soon as `WarpFindEmpty` succeeds, without
scanning the rest of the chain for the key).  After a `Remove` leaves a
hole in an earlier slab of a chain whose later slab holds the key, a
re-insert of that key claims the hole and reports success, creating two
records with equal key bytes. -/

/-- **C4** (evaluation at the failing input): key 31 is present in
`holeState`, yet `Insert(key 31, value 200)` reports `success = true`,
stores a second record with equal key bytes (`keyUnique` breaks), and the
previously stored value is not protected — contradicting the code's own
"`WE DO NOT ALLOW DUPLICATE KEYS`" contract and the spec's Scenario B. -/
theorem c4_duplicate_insert_succeeds :
    byte4 31 ∈ slotKeys holeState ∧
    (insertOne holeState (byte4 31) (byte4 200)).2.2 = true ∧
    ¬ keyUnique dupState := by
  decide

/-- **C2** (counterexample): the pair `(key 31, value 131)` was inserted
with `success = true` (batch output index 31) and never removed, yet after
the duplicate insert `Search(key 31)` returns an iterator whose extraction
yields value 200, not the original value 131. -/
theorem c2_roundtrip_counterexample :
    ((insertBatch (freshTable 1 40 4 4) holePairs).2.getD 31 (none, false)).2
      = true ∧
    (searchOne dupState (byte4 31)).2 = true ∧
    extractIterator dupState ((searchOne dupState (byte4 31)).1.getD 0)
      = (byte4 31, byte4 200) ∧
    byte4 200 ≠ byte4 131 := by
  decide

/-- **C3** (counterexample): in `dupState` the key 31 is present;
`Remove(key 31)` reports `success = true`, yet the subsequent
`Search(key 31)` still reports `success = true` (the second record with the
same key bytes remains), contradicting the claim. -/
theorem c3_remove_search_counterexample :
    (removeOne dupState (byte4 31)).2 = true ∧
    (searchOne (removeOne dupState (byte4 31)).1 (byte4 31)).2 = true := by
  decide

/-- **C2** (amended): a (key, value) pair inserted with `success = true`
and not since removed is held by some record `p` lying in a slot of its
bucket's chain; *provided no other slot of the table references a record
with equal key bytes* (the uniqueness precondition the duplicate scenario
shows to be necessary), `Search(key)` reports `success = true` with
iterator `p`, and extracting `p` yields exactly the original key and value
bytes. -/
theorem c2_search_roundtrip (st : HState) (hwf : WF st) (key value : Bytes)
    (p : Nat)
    (hklen : key.length = st.dsizeKey) (hvlen : value.length = st.dsizeValue)
    (hrec : st.records.getD p none = some (key ++ value))
    (hin : ∃ s ∈ chainSlabs st (computeBucket st key) .head
      (st.heap.length + 1), (some p) ∈ s.slots)
    (huniq : ∀ s ∈ allSlabs st, ∀ o ∈ s.slots,
      slotMatches st key o = true → o = some p) :
    searchOne st key = (some p, true) ∧
    extractIterator st p = (key, value) := by
  have hb : computeBucket st key < st.numBuckets :=
    Nat.mod_lt _ hwf.buckets_pos
  have hcl := hwf.closed _ hb
  have h1 : (key ++ value).take st.dsizeKey = key := List.take_left' hklen
  have h2 : key.take st.dsizeKey = key := by
    rw [← hklen]
    exact List.take_length _
  have hpmatch : slotMatches st key (some p) = true := by
    simp only [slotMatches, hrec, h1, h2]
    simp
  obtain ⟨s, hs, hp⟩ := hin
  constructor
  · exact searchLoop_found hcl
      (fun t ht o ho hm => huniq t (chainSlabs_subset ht) o ho hm)
      ⟨s, hs, some p, hp, hpmatch⟩
  · unfold extractIterator
    rw [hrec]
    show ((key ++ value).take st.dsizeKey,
      ((key ++ value).drop st.dsizeKey).take st.dsizeValue) = (key, value)
    rw [h1, List.drop_left' hklen, ← hvlen, List.take_length]

theorem c2_search_roundtrip_witness :
    searchOne c2State (byte4 1) = (some 0, true) ∧
    extractIterator c2State 0 = (byte4 1, byte4 9) :=
  c2_search_roundtrip c2State
    ⟨by decide, by decide, by decide, by decide, by decide, by decide,
      by decide⟩
    (byte4 1) (byte4 9) 0 (by decide) (by decide) (by decide) (by decide)
    (by decide)

/-- **C3** (amended): for a key present in exactly one occupied slot of the
table (the uniqueness precondition the duplicate scenario shows to be
necessary), a `Remove(key)` that reports `success = true` clears that slot
and frees its record; a subsequent `Search(key)` reports `success = false`,
and a second `Remove(key)` reports `success = false` leaving the state
untouched — no pair record is freed again. -/
theorem c3_remove_then_search (st : HState) (hwf : WF st) (key : Bytes)
    (p : Nat)
    (hmatch : slotMatches st key (some p) = true)
    (hin : ∃ s ∈ chainSlabs st (computeBucket st key) .head
      (st.heap.length + 1), (some p) ∈ s.slots)
    (huniq : ∀ s ∈ allSlabs st, ∀ o ∈ s.slots,
      slotMatches st key o = true → o = some p) :
    ∃ st', removeOne st key = (st', true) ∧
      searchOne st' key = (none, false) ∧
      removeOne st' key = (st', false) := by
  have hb : computeBucket st key < st.numBuckets :=
    Nat.mod_lt _ hwf.buckets_pos
  have hcl := hwf.closed _ hb
  obtain ⟨sin, hsin, hpin⟩ := hin
  obtain ⟨c', s, i, hrs, hip, heq⟩ := removeLoop_found hcl
    (fun t ht o ho hm => huniq t (chainSlabs_subset ht) o ho hm)
    ⟨sin, hsin, some p, hpin, hmatch⟩
  have hpocc : p ∈ occupiedPtrs st :=
    mem_occupiedPtrs (readSlab_mem hrs) (List.getElem?_mem hip)
  have hplt : p < st.records.length := hwf.ptrs_lt p hpocc
  refine ⟨freeRecord (writeSlot st (computeBucket st key) c' i none) p,
    heq, ?_, ?_⟩
  all_goals {
    have hrecs : (freeRecord (writeSlot st (computeBucket st key) c' i none)
        p).records = st.records.set p none := by
      show (writeSlot st (computeBucket st key) c' i none).records.set p none
        = st.records.set p none
      rw [records_writeSlot]
    have hdk' : (freeRecord (writeSlot st (computeBucket st key) c' i none)
        p).dsizeKey = st.dsizeKey := by
      show (writeSlot st (computeBucket st key) c' i none).dsizeKey
        = st.dsizeKey
      rw [dsizeKey_writeSlot]
    have hnb' : (freeRecord (writeSlot st (computeBucket st key) c' i none)
        p).numBuckets = st.numBuckets := by
      show (writeSlot st (computeBucket st key) c' i none).numBuckets
        = st.numBuckets
      rw [numBuckets_writeSlot]
    have hheap' : (freeRecord (writeSlot st (computeBucket st key) c' i none)
        p).heap.length = st.heap.length := by
      show (writeSlot st (computeBucket st key) c' i none).heap.length
        = st.heap.length
      rw [heapLength_writeSlot]
    have hbeq : computeBucket (freeRecord (writeSlot st (computeBucket st key)
        c' i none) p) key = computeBucket st key := by
      show defaultHash (freeRecord (writeSlot st (computeBucket st key) c' i
          none) p).dsizeKey key
        % (freeRecord (writeSlot st (computeBucket st key) c' i none)
            p).numBuckets
        = computeBucket st key
      rw [hdk', hnb']
      rfl
    have hcl' : ∀ b', b' < st.numBuckets → chainClosed
        (freeRecord (writeSlot st (computeBucket st key) c' i none) p) b'
        .head (st.heap.length + 1) = true := by
      intro b' hb'
      have hcc : ∀ (c : Cursor) (f : Nat),
          chainClosed (freeRecord (writeSlot st (computeBucket st key) c' i
            none) p) b' c f
          = chainClosed (writeSlot st (computeBucket st key) c' i none) b' c
              f :=
        chainClosed_congr (fun c => rfl)
      rw [hcc, chainClosed_writeSlot]
      exact hwf.closed b' hb'
    have hnm : ∀ t ∈ allSlabs (freeRecord (writeSlot st (computeBucket st
        key) c' i none) p), ∀ o ∈ t.slots,
        slotMatches (freeRecord (writeSlot st (computeBucket st key) c' i
          none) p) key o = false := by
      intro t ht o ho
      cases o with
      | none => rfl
      | some q =>
        by_cases hqp : q = p
        · subst hqp
          simp only [slotMatches, List.getD_eq_getElem?_getD, hrecs,
            List.getElem?_set_self hplt]
          rfl
        · have hgd : (freeRecord (writeSlot st (computeBucket st key) c' i
              none) p).records.getD q none = st.records.getD q none := by
            rw [List.getD_eq_getElem?_getD, hrecs,
              List.getElem?_set_ne (fun h => hqp h.symm),
              ← List.getD_eq_getElem?_getD]
          have hsm : slotMatches (freeRecord (writeSlot st (computeBucket st
              key) c' i none) p) key (some q)
              = slotMatches st key (some q) := by
            simp only [slotMatches, hgd, hdk']
          rw [hsm]
          cases hx : slotMatches st key (some q) with
          | false => rfl
          | true =>
            exfalso
            have htW : t ∈ allSlabs (writeSlot st (computeBucket st key) c' i
                none) := ht
            rcases allSlabs_writeSlot_mem htW with h | ⟨u, hu, rfl⟩
            · exact hqp (Option.some.inj (huniq t h _ ho hx))
            · rcases List.mem_or_eq_of_mem_set ho with ho' | ho'
              · exact hqp (Option.some.inj (huniq u hu _ ho' hx))
              · exact Option.noConfusion ho'
    refine ?_
    first
    | (unfold searchOne searchOneWith
       rw [hheap', hbeq]
       exact searchLoop_noMatch (hcl' _ hb)
         (fun t ht o ho => hnm t (chainSlabs_subset ht) o ho))
    | (unfold removeOne removeOneWith
       rw [hheap', hbeq]
       exact removeLoop_noMatch (hcl' _ hb)
         (fun t ht o ho => hnm t (chainSlabs_subset ht) o ho))
  }

theorem c3_remove_then_search_witness :
    ∃ st', removeOne c2State (byte4 1) = (st', true) ∧
      searchOne st' (byte4 1) = (none, false) ∧
      removeOne st' (byte4 1) = (st', false) :=
  c3_remove_then_search c2State
    ⟨by decide, by decide, by decide, by decide, by decide, by decide,
      by decide⟩
    (byte4 1) 0 (by decide) (by decide) (by decide)

/-- **C5**: when the head slab of a key's bucket is completely full (no
empty data slot) and forms the whole chain (its next pointer is the empty
sentinel), and the key itself is not stored in it, inserting that key
allocates a fresh slab, links it as the head slab's next pointer, and
reports `success = true`; afterwards Search succeeds for the new key and
for the key of every occupied slot of the formerly full head slab — the
slotsPerSlab + 1 keys of the scenario. -/
theorem c5_chain_extension (st : HState) (hwf : WF st) (key value : Bytes)
    (t : Slab)
    (hklen : key.length = st.dsizeKey)
    (ht : readSlab st (computeBucket st key) Cursor.head = some t)
    (hfull : findEmptyIdx t.slots = none)
    (htail : t.next = none)
    (hnomatch : ∀ o ∈ t.slots, slotMatches st key o = false)
    (hroom : st.records.countP Option.isSome < st.records.length)
    (hstored : ∀ q ∈ slabPtrs t,
      computeBucket st ((recordBytes st q).take st.dsizeKey)
        = computeBucket st key) :
    ∃ st' p, insertOne st key value = (st', some p, true) ∧
      st'.heap.length = st.heap.length + 1 ∧
      (readSlab st' (computeBucket st key) Cursor.head).map Slab.next
        = some (some st.heap.length) ∧
      (searchOne st' key).2 = true ∧
      ∀ q ∈ slabPtrs t,
        (searchOne st' ((recordBytes st q).take st.dsizeKey)).2 = true := by
  obtain ⟨p, hpfree, halloc⟩ :=
    allocRecord_of_free (key.take st.dsizeKey ++ value.take st.dsizeValue)
      hroom
  have hplt : p < st.records.length := by
    rcases List.getElem?_eq_some.1 hpfree with ⟨hlt, -⟩
    exact hlt
  have hpnone : st.records.getD p none = none := by
    rw [List.getD_eq_getElem?_getD, hpfree]
    rfl
  have hqne : ∀ q, some q ∈ t.slots → q ≠ p := by
    intro q hq hqp
    have hok := hwf.ptrs_ok q (mem_occupiedPtrs (readSlab_mem ht) hq)
    rw [hqp] at hok
    unfold recLenOk at hok
    rw [hpnone] at hok
    simp at hok
  set st1 : HState :=
    { st with records :=
        st.records.set p (some (key.take st.dsizeKey ++ value.take st.dsizeValue)) }
    with hst1
  have hr1 : readSlab st1 (computeBucket st key) Cursor.head = some t := ht
  have hsm1 : ∀ o ∈ t.slots, slotMatches st1 key o = false := by
    intro o ho
    cases o with
    | none => rfl
    | some q =>
      have hrecq1 : st1.records.getD q none = st.records.getD q none := by
        show (st.records.set p
          (some (key.take st.dsizeKey ++ value.take st.dsizeValue))).getD q
            none = _
        rw [List.getD_eq_getElem?_getD, List.getD_eq_getElem?_getD,
          List.getElem?_set_ne (fun h => hqne q ho h.symm)]
      have hdk1 : st1.dsizeKey = st.dsizeKey := rfl
      have hcongr : slotMatches st1 key (some q)
          = slotMatches st key (some q) := by
        simp only [slotMatches, hrecq1, hdk1]
      rw [hcongr]
      exact hnomatch _ ho
  have hfk1 : findKeyIdx st1 key t.slots = none :=
    List.findIdx?_eq_none_iff.2 hsm1
  have ha2 : (allocSlab st1).2 = st.heap.length := rfl
  have hrA : readSlab (allocSlab st1).1 (computeBucket st key) Cursor.head
      = some t := readSlab_allocSlab_of_some hr1
  have hread2 : readSlab (setNext (allocSlab st1).1 (computeBucket st key)
      Cursor.head (some st.heap.length)) (computeBucket st key) Cursor.head
      = some { t with next := some st.heap.length } :=
    readSlab_setNext_same hrA (some st.heap.length)
  have hreadF : readSlab (setNext (allocSlab st1).1 (computeBucket st key)
      Cursor.head (some st.heap.length)) (computeBucket st key)
      (Cursor.node st.heap.length) = some emptySlab :=
    readSlab_linkFresh hr1 (some st.heap.length) (computeBucket st key)
  have hrecX : (setNext (allocSlab st1).1 (computeBucket st key) Cursor.head
      (some st.heap.length)).records = st1.records := by
    rw [records_setNext]
    rfl
  have hdkX : (setNext (allocSlab st1).1 (computeBucket st key) Cursor.head
      (some st.heap.length)).dsizeKey = st1.dsizeKey := by
    rw [dsizeKey_setNext]
    rfl
  have hfk2 : findKeyIdx (setNext (allocSlab st1).1 (computeBucket st key)
      Cursor.head (some st.heap.length)) key t.slots = none := by
    unfold findKeyIdx
    rw [slotMatches_congr hrecX hdkX]
    exact hfk1
  have hfkF : findKeyIdx (setNext (allocSlab st1).1 (computeBucket st key)
      Cursor.head (some st.heap.length)) key emptySlab.slots = none :=
    findKeyIdx_emptySlab _ key
  have htrace : insertLoop st1 key p (computeBucket st key) Cursor.head
      (st.heap.length + 3)
      = (writeSlot (setNext (allocSlab st1).1 (computeBucket st key)
          Cursor.head (some st.heap.length)) (computeBucket st key)
          (Cursor.node st.heap.length) 0 (some p), some p, true) := by
    rw [show st.heap.length + 3 = st.heap.length + 1 + 1 + 1 from by omega]
    simp only [insertLoop, hr1, hfk1, hfull, htail, ha2, hread2, hfk2,
      hreadF, hfkF, findEmptyIdx_emptySlab]
  have hrun : insertOne st key value
      = insertLoop st1 key p (computeBucket st key) Cursor.head
          (st.heap.length + 3) := by
    unfold insertOne insertOneWith
    rw [halloc]
  have hXlen' : st.heap.length < (setNext (allocSlab st1).1
      (computeBucket st key) Cursor.head (some st.heap.length)).heap.length
      := by
    rw [heapLength_setNext]
    show st.heap.length < (st1.heap ++ [emptySlab]).length
    rw [List.length_append]
    show st.heap.length < st.heap.length + 1
    omega
  set W : HState := writeSlot (setNext (allocSlab st1).1
    (computeBucket st key) Cursor.head (some st.heap.length))
    (computeBucket st key) (Cursor.node st.heap.length) 0 (some p) with hW
  have hWeq : W = setSlab (setNext (allocSlab st1).1 (computeBucket st key)
      Cursor.head (some st.heap.length)) (computeBucket st key)
      (Cursor.node st.heap.length)
      { emptySlab with slots := emptySlab.slots.set 0 (some p) } := by
    rw [hW]
    unfold writeSlot
    rw [hreadF]
  have hWrecs : W.records = st1.records := by
    rw [hWeq, records_setSlab]
    exact hrecX
  have hWdk : W.dsizeKey = st.dsizeKey := by
    rw [hWeq, dsizeKey_setSlab, hdkX]
  have hWnb : W.numBuckets = st.numBuckets := by
    rw [hWeq, numBuckets_setSlab, numBuckets_setNext]
    rfl
  have hWlen : W.heap.length = st.heap.length + 1 := by
    rw [hWeq, heapLength_setSlab, heapLength_setNext]
    show (st1.heap ++ [emptySlab]).length = st.heap.length + 1
    rw [List.length_append]
    rfl
  have hreadW : readSlab W (computeBucket st key) Cursor.head
      = some { t with next := some st.heap.length } := by
    rw [hWeq]
    exact hread2
  have hreadWN : readSlab W (computeBucket st key)
      (Cursor.node st.heap.length)
      = some { emptySlab with slots := emptySlab.slots.set 0 (some p) } := by
    rw [hWeq]
    show getElem? ((setNext (allocSlab st1).1 (computeBucket st key)
      Cursor.head (some st.heap.length)).heap.set st.heap.length
      { emptySlab with slots := emptySlab.slots.set 0 (some p) })
      st.heap.length = _
    rw [List.getElem?_set_self hXlen']
  have hclW : chainClosed W (computeBucket st key) Cursor.head
      (st.heap.length + 1 + 1) = true := by
    simp only [chainClosed, hreadW, hreadWN, emptySlab]
  have hmem1 : { t with next := some st.heap.length }
      ∈ chainSlabs W (computeBucket st key) Cursor.head
        (st.heap.length + 1 + 1) := by
    simp only [chainSlabs, hreadW, hreadWN, emptySlab]
    exact List.mem_cons_self _ _
  have hmem2 : { emptySlab with slots := emptySlab.slots.set 0 (some p) }
      ∈ chainSlabs W (computeBucket st key) Cursor.head
        (st.heap.length + 1 + 1) := by
    simp only [chainSlabs, hreadW, hreadWN, emptySlab]
    exact List.mem_cons_of_mem _ (List.mem_cons_self _ _)
  have hgdp : W.records.getD p none
      = some (key.take st.dsizeKey ++ value.take st.dsizeValue) := by
    rw [List.getD_eq_getElem?_getD, hWrecs]
    show (st.records.set p
      (some (key.take st.dsizeKey ++ value.take st.dsizeValue)))[p]?.getD
        none = _
    rw [List.getElem?_set_self hplt]
    rfl
  have hmatchP : slotMatches W key (some p) = true := by
    have hlen : (key.take st.dsizeKey).length = st.dsizeKey := by
      rw [List.length_take, hklen]
      exact Nat.min_self _
    simp only [slotMatches, hgdp, hWdk]
    rw [decide_eq_true_eq]
    exact List.take_left' hlen
  have hbeqW : computeBucket W key = computeBucket st key := by
    show defaultHash W.dsizeKey key % W.numBuckets = computeBucket st key
    rw [hWdk, hWnb]
    rfl
  have hmemPslots : some p
      ∈ ({ emptySlab with slots := emptySlab.slots.set 0 (some p) }
          : Slab).slots := by
    show some p ∈ some p :: List.replicate 30 none
    exact List.mem_cons_self _ _
  have hsearchNew : (searchOne W key).2 = true := by
    show (searchLoop W key (computeBucket W key) Cursor.head
      (W.heap.length + 1)).2 = true
    rw [hWlen, hbeqW]
    exact searchLoop_found_mask hclW
      ⟨{ emptySlab with slots := emptySlab.slots.set 0 (some p) }, hmem2,
        some p, hmemPslots, hmatchP⟩
  have hsearchOld : ∀ q ∈ slabPtrs t,
      (searchOne W ((recordBytes st q).take st.dsizeKey)).2 = true := by
    intro q hq
    have hq' : some q ∈ t.slots := by
      obtain ⟨o, ho, hoq⟩ := List.mem_filterMap.1 hq
      have hoq' : o = some q := hoq
      exact hoq' ▸ ho
    obtain ⟨r, hr⟩ : ∃ r, st.records.getD q none = some r := by
      have hok := hwf.ptrs_ok q (mem_occupiedPtrs (readSlab_mem ht) hq')
      unfold recLenOk at hok
      cases hx : st.records.getD q none with
      | none => rw [hx] at hok; simp at hok
      | some r => exact ⟨r, rfl⟩
    have hgdq : W.records.getD q none = some r := by
      rw [List.getD_eq_getElem?_getD, hWrecs]
      show (st.records.set p
        (some (key.take st.dsizeKey ++ value.take st.dsizeValue)))[q]?.getD
          none = some r
      rw [List.getElem?_set_ne (fun h => hqne q hq' h.symm),
        ← List.getD_eq_getElem?_getD]
      exact hr
    have hkq : (recordBytes st q).take st.dsizeKey = r.take st.dsizeKey := by
      simp only [recordBytes, hr, Option.getD_some]
    have hmq : slotMatches W ((recordBytes st q).take st.dsizeKey) (some q)
        = true := by
      simp only [slotMatches, hgdq, hWdk, hkq]
      rw [decide_eq_true_eq, List.take_take, Nat.min_self]
    have hbq : computeBucket W ((recordBytes st q).take st.dsizeKey)
        = computeBucket st key := by
      show defaultHash W.dsizeKey ((recordBytes st q).take st.dsizeKey)
        % W.numBuckets = computeBucket st key
      rw [hWdk, hWnb]
      exact hstored q hq
    show (searchLoop W ((recordBytes st q).take st.dsizeKey)
      (computeBucket W ((recordBytes st q).take st.dsizeKey)) Cursor.head
      (W.heap.length + 1)).2 = true
    rw [hWlen, hbq]
    exact searchLoop_found_mask hclW
      ⟨{ t with next := some st.heap.length }, hmem1, some q, hq', hmq⟩
  refine ⟨W, p, ?_, hWlen, ?_, hsearchNew, hsearchOld⟩
  · rw [hrun]
    exact htrace
  · rw [hreadW]
    rfl

theorem c5_chain_extension_witness :
    ∃ st' p, insertOne c5State (byte4 31) (byte4 200)
        = (st', some p, true) ∧
      st'.heap.length = c5State.heap.length + 1 ∧
      (readSlab st' (computeBucket c5State (byte4 31)) Cursor.head).map
        Slab.next = some (some c5State.heap.length) ∧
      (searchOne st' (byte4 31)).2 = true ∧
      ∀ q ∈ slabPtrs ⟨(List.range 31).map some, none⟩,
        (searchOne st'
          ((recordBytes c5State q).take c5State.dsizeKey)).2 = true :=
  c5_chain_extension c5State
    ⟨by decide, by decide, by decide, by decide, by decide, by decide,
      by decide⟩
    (byte4 31) (byte4 200) ⟨(List.range 31).map some, none⟩ (by decide)
    (by decide) (by decide) (by decide) (by decide) (by decide) (by decide)

theorem chainCount_eq_sum (st : HState) (b : Nat) :
    ∀ (c : Cursor) (f : Nat),
      chainCount st b c f = ((chainSlabs st b c f).map slabCount).sum := by
  intro c f
  induction f generalizing c with
  | zero => rfl
  | succ f ih =>
    cases hr : readSlab st b c with
    | none => simp only [chainCount, chainSlabs, hr]; rfl
    | some s =>
      cases hn : s.next with
      | none =>
        simp only [chainCount, chainSlabs, hr, hn, List.map_cons,
          List.sum_cons, List.map_nil, List.sum_nil]
      | some nx =>
        simp only [chainCount, chainSlabs, hr, hn, List.map_cons,
          List.sum_cons, ih]

theorem chainSlabs_length_node (st : HState) (b : Nat) :
    ∀ (h : Nat) (f : Nat), chainClosed st b (.node h) f = true →
      (chainSlabs st b (.node h) f).length
        = (chainNodes st b (.node h) f).length := by
  intro h f
  induction f generalizing h with
  | zero => intro hcl; simp [chainClosed] at hcl
  | succ f ih =>
    intro hcl
    cases hr : readSlab st b (.node h) with
    | none => simp [chainClosed, hr] at hcl
    | some s =>
      cases hn : s.next with
      | none =>
        simp only [chainSlabs, chainNodes, hr, hn]
        rfl
      | some nx =>
        simp only [chainClosed, hr, hn] at hcl
        simp only [chainSlabs, chainNodes, hr, hn, List.length_cons,
          List.length_append, List.length_nil]
        rw [ih nx hcl]
        omega

theorem chainSlabs_length_head (st : HState) (b : Nat) (f : Nat)
    (hcl : chainClosed st b .head f = true) :
    (chainSlabs st b .head f).length
      = (chainNodes st b .head f).length + 1 := by
  cases f with
  | zero => simp [chainClosed] at hcl
  | succ f =>
    cases hr : readSlab st b .head with
    | none => simp [chainClosed, hr] at hcl
    | some s =>
      cases hn : s.next with
      | none =>
        simp only [chainSlabs, chainNodes, hr, hn]
        rfl
      | some nx =>
        simp only [chainClosed, hr, hn] at hcl
        simp only [chainSlabs, chainNodes, hr, hn, List.length_cons,
          List.nil_append]
        rw [chainSlabs_length_node st b nx f hcl]

theorem sum_map_succ {α : Type} (l : List α) (g : α → Nat) :
    (l.map (fun a => g a + 1)).sum = (l.map g).sum + l.length := by
  induction l with
  | nil => rfl
  | cons a l ih =>
    simp only [List.map_cons, List.sum_cons, List.length_cons, ih]
    omega

/-- **C6** (amended): `ComputeLoadFactor()` equals the sum over
`CountElemsPerBucket` divided by the total allocated slab count (head
slabs included) times `WARP_WIDTH = 32` — the slab's full 32-unit
footprint, next-pointer unit included, *not* the 31 data slots — and the
value lies in `[0, 1]`.  The chain-partition hypotheses say the chains
reference distinct allocated heap slabs. -/
theorem c6_load_factor (st : HState) (hwf : WF st)
    (hnodup : (allChainNodes st).Nodup)
    (hbound : ∀ n ∈ allChainNodes st, n < st.heap.length) :
    computeLoadFactor st
      = ((countElemsPerBucket st).sum : ℚ)
        / (((st.numBuckets + st.heap.length) * 32 : Nat) : ℚ) ∧
    0 ≤ computeLoadFactor st ∧ computeLoadFactor st ≤ 1 := by
  have hcc : ∀ b ∈ List.range st.numBuckets,
      chainCount st b .head (st.heap.length + 1)
        ≤ 31 * ((chainNodes st b .head (st.heap.length + 1)).length + 1) := by
    intro b hb
    have hcl := hwf.closed b (List.mem_range.1 hb)
    rw [chainCount_eq_sum st b]
    have h31 : ∀ x ∈ (chainSlabs st b .head (st.heap.length + 1)).map
        slabCount, x ≤ 31 := by
      intro x hx
      obtain ⟨s, hs, rfl⟩ := List.mem_map.1 hx
      have hlen := hwf.slots_len s (chainSlabs_subset hs)
      have : slabCount s ≤ s.slots.length := List.countP_le_length _
      omega
    have hle := List.sum_le_card_nsmul _ 31 h31
    rw [smul_eq_mul, List.length_map] at hle
    rw [chainSlabs_length_head st b _ hcl] at hle
    omega
  have hsum : (countElemsPerBucket st).sum
      ≤ ((List.range st.numBuckets).map
          (fun b => 31 * ((chainNodes st b .head
            (st.heap.length + 1)).length + 1))).sum := by
    show (((List.range st.numBuckets).map _).sum : Nat) ≤ _
    exact List.sum_le_sum hcc
  have hsplit : ((List.range st.numBuckets).map
      (fun b => 31 * ((chainNodes st b .head
        (st.heap.length + 1)).length + 1))).sum
      = 31 * (((List.range st.numBuckets).map
          (fun b => (chainNodes st b .head
            (st.heap.length + 1)).length)).sum + st.numBuckets) := by
    rw [List.sum_map_mul_left, sum_map_succ, List.length_range]
  have hnodes : ((List.range st.numBuckets).map
      (fun b => (chainNodes st b .head (st.heap.length + 1)).length)).sum
      ≤ st.heap.length := by
    have h1 : (allChainNodes st).length
        = ((List.range st.numBuckets).map
            (fun b => (chainNodes st b .head
              (st.heap.length + 1)).length)).sum := by
      show (((List.range st.numBuckets).map _).flatten).length = _
      rw [List.length_flatten, List.map_map]
      rfl
    have hsub : allChainNodes st ⊆ List.range st.heap.length :=
      fun n hn => List.mem_range.2 (hbound n hn)
    have h2 := (List.subperm_of_subset hnodup hsub).length_le
    rw [List.length_range] at h2
    omega
  have hS : (countElemsPerBucket st).sum
      ≤ (st.numBuckets + st.heap.length) * 32 := by omega
  refine ⟨rfl, div_nonneg (Nat.cast_nonneg _) (Nat.cast_nonneg _), ?_⟩
  have hD : (0 : ℚ)
      < (((st.numBuckets + st.heap.length) * 32 : Nat) : ℚ) := by
    have hpos : 0 < (st.numBuckets + st.heap.length) * 32 := by
      have := hwf.buckets_pos
      omega
    exact_mod_cast hpos
  show ((countElemsPerBucket st).sum : ℚ)
    / (((st.numBuckets + st.heap.length) * 32 : Nat) : ℚ) ≤ 1
  rw [div_le_one hD]
  exact_mod_cast hS

theorem c6_load_factor_witness :
    computeLoadFactor holeBase
      = ((countElemsPerBucket holeBase).sum : ℚ)
        / (((holeBase.numBuckets + holeBase.heap.length) * 32 : Nat) : ℚ) ∧
    0 ≤ computeLoadFactor holeBase ∧ computeLoadFactor holeBase ≤ 1 :=
  c6_load_factor holeBase
    ⟨by decide, by decide, by decide, by decide, by decide, by decide,
      by decide⟩
    (by decide) (by decide)

/-- **C6** (refutation of the claimed denominator): on a table whose single
head slab is completely full, `ComputeLoadFactor` returns `31 / 32`, not
the claimed `occupiedSlotCount / (totalSlabs * slotsPerSlab) = 31 / 31`:
the code divides by `WARP_WIDTH = 32`, not by the 31 data slots per
slab. -/
theorem c6_load_factor_slots_counterexample :
    computeLoadFactor c5State
      ≠ ((countElemsPerBucket c5State).sum : ℚ)
        / (((c5State.numBuckets + c5State.heap.length) * 31 : Nat) : ℚ) := by
  have h1 : (countElemsPerBucket c5State).sum = 31 := by decide
  have h2 : c5State.numBuckets = 1 := by decide
  have h3 : c5State.heap.length = 0 := by decide
  rw [computeLoadFactor, h1, h2, h3]
  norm_num

theorem insertOne_full (st : HState) (k v : Bytes)
    (h : st.records.countP Option.isSome = st.records.length) :
    insertOne st k v = (st, none, false) := by
  unfold insertOne insertOneWith
  rw [allocRecord_of_full _ h]

theorem insertBatch_append (l1 l2 : List (Bytes × Bytes)) :
    ∀ st : HState,
      insertBatch st (l1 ++ l2)
        = ((insertBatch (insertBatch st l1).1 l2).1,
           (insertBatch st l1).2 ++ (insertBatch (insertBatch st l1).1 l2).2)
      := by
  induction l1 with
  | nil =>
    intro st
    show insertBatch st l2
      = ((insertBatch st l2).1, [] ++ (insertBatch st l2).2)
    rw [List.nil_append]
  | cons a l1 ih =>
    intro st
    obtain ⟨k, v⟩ := a
    simp only [List.cons_append, insertBatch, List.append_eq,
      ih (insertOne st k v).1]

theorem insertBatch_get (pairs : List (Bytes × Bytes)) :
    ∀ (st : HState) (i : Nat) (k v : Bytes), pairs[i]? = some (k, v) →
      (insertBatch st pairs).2[i]?
        = some (insertOne (insertBatch st (pairs.take i)).1 k v).2 := by
  induction pairs with
  | nil => intro st i k v h; simp at h
  | cons a rest ih =>
    intro st i k v h
    obtain ⟨k0, v0⟩ := a
    cases i with
    | zero =>
      simp only [List.getElem?_cons_zero, Option.some.injEq,
        Prod.mk.injEq] at h
      obtain ⟨rfl, rfl⟩ := h
      simp only [insertBatch, List.take_zero, List.getElem?_cons_zero]
    | succ i =>
      simp only [List.getElem?_cons_succ] at h
      simp only [insertBatch, List.getElem?_cons_succ, List.take_succ_cons]
      rw [ih (insertOne st k0 v0).1 i k v h]

/-- **C7** (amended, the Pair Store half): in a batch `Insert`, when the
Pair Store pool is exhausted at element `i`'s request, that element's
output is the `NULL_ITERATOR` sentinel with `success = false` and the
failing request leaves the table untouched, while the batch still
processes all `N` elements, each from the state accumulated by its
predecessors.  (The Slab Allocator half of the claim is refuted
separately: see the counterexample below.) -/
theorem c7_alloc_exhaustion (st : HState) (pairs : List (Bytes × Bytes))
    (i : Nat) (k v : Bytes) (hp : pairs[i]? = some (k, v))
    (hfull : ((insertBatch st (pairs.take i)).1).records.countP Option.isSome
      = ((insertBatch st (pairs.take i)).1).records.length) :
    (insertBatch st pairs).2.length = pairs.length ∧
    (insertBatch st pairs).2[i]? = some (none, false) ∧
    (insertBatch st (pairs.take (i + 1))).1
      = (insertBatch st (pairs.take i)).1 ∧
    (∀ j kj vj, pairs[j]? = some (kj, vj) →
      (insertBatch st pairs).2[j]?
        = some (insertOne (insertBatch st (pairs.take j)).1 kj vj).2) := by
  have hfullOne := insertOne_full (insertBatch st (pairs.take i)).1 k v hfull
  refine ⟨insertBatch_length pairs st, ?_, ?_,
    fun j kj vj hj => insertBatch_get pairs st j kj vj hj⟩
  · rw [insertBatch_get pairs st i k v hp, hfullOne]
  · have htake : pairs.take (i + 1) = pairs.take i ++ [(k, v)] := by
      rw [List.take_succ, hp]
      rfl
    rw [htake, insertBatch_append (pairs.take i) [(k, v)] st]
    show (insertBatch (insertBatch st (pairs.take i)).1 [(k, v)]).1
      = (insertBatch st (pairs.take i)).1
    simp only [insertBatch, hfullOne]

/-- A slab whose next pointer is already the empty sentinel is unchanged by
writing the sentinel back — the no-op CAS of Branch 3.2 on exhaustion. -/
theorem setNext_none_id {st : HState} {b : Nat} {c : Cursor} {s : Slab}
    (hr : readSlab st b c = some s) (hn : s.next = none) :
    setNext st b c none = st := by
  unfold setNext
  rw [hr]
  have hs : { s with next := none } = s := by
    cases s with
    | mk slots next =>
      cases hn
      rfl
  show setSlab st b c { s with next := none } = st
  rw [hs]
  cases c with
  | head =>
    show { st with buckets := st.buckets.set b s } = st
    rw [set_self_of_getElem? hr]
  | node hh =>
    show { st with heap := st.heap.set hh s } = st
    rw [set_self_of_getElem? hr]

/-- With the current slab full, holding no match, terminating the chain,
and the slab pool exhausted, one iteration of the bounded insert loop
returns to exactly the same configuration: no fuel budget moves the
request past the allocate-and-CAS step, so the loop only ever exits by
running out of fuel, with the state unchanged and no iterator. -/
theorem insertLoopB_stuck {cap : Nat} {st : HState} {key : Bytes}
    {p b : Nat} {c : Cursor} {s : Slab}
    (hr : readSlab st b c = some s)
    (hfk : findKeyIdx st key s.slots = none)
    (hfe : findEmptyIdx s.slots = none)
    (hn : s.next = none)
    (hcap : ¬ st.heap.length < cap) :
    ∀ fuel, insertLoopB cap st key p b c fuel = (st, none, false) := by
  intro fuel
  induction fuel with
  | zero => rfl
  | succ fuel ih =>
    have halloc : allocSlabBounded cap st = (st, none) := by
      unfold allocSlabBounded
      rw [if_neg hcap]
    simp only [insertLoopB, hr, hfk, hfe, hn, halloc,
      setNext_none_id hr hn]
    exact ih

/-- **C7** (refutation of the Slab Allocator half): with the bucket chain
full and the slab pool exhausted, the insert request is never processed to
an outcome.  Under the spec's allocator (`WarpAllocate` returns the
sentinel handle on exhaustion), Branch 3.2 installs the unchecked handle:
the CAS writes `EMPTY_SLAB_PTR` back, the lane restarts in the identical
configuration, and every additional unit of fuel is consumed with zero
progress — the first equation.  Hence for no fuel budget does the loop
terminate: the result is always the out-of-fuel configuration (second
equation), never an output written by the request itself, contradicting
"that element's output is a sentinel iterator with success=false, while
every other element of the batch is still processed to its own
outcome". -/
theorem c7_slab_exhaustion_counterexample :
    ((fun fuel => insertOneBWith 0 c5State (byte4 31) (byte4 200) (fuel + 1))
      = fun fuel => insertOneBWith 0 c5State (byte4 31) (byte4 200) fuel) ∧
    ((fun fuel => insertOneBWith 0 c5State (byte4 31) (byte4 200) fuel)
      = fun _ => (c7StuckState, none, false)) := by
  have halloc : allocRecord c5State
      ((byte4 31).take c5State.dsizeKey ++ (byte4 200).take c5State.dsizeValue)
      = some (c7StuckState, 31) := by decide
  have hr : readSlab c7StuckState (computeBucket c5State (byte4 31))
      Cursor.head = some (Slab.mk ((List.range 31).map some) none) := by
    decide
  have hfk : findKeyIdx c7StuckState (byte4 31)
      (Slab.mk ((List.range 31).map some) none).slots = none := by decide
  have hfe : findEmptyIdx (Slab.mk ((List.range 31).map some) none).slots
      = none := by decide
  have hn : (Slab.mk ((List.range 31).map some) none).next = none := rfl
  have hcap : ¬ c7StuckState.heap.length < 0 := by decide
  have hstuck := @insertLoopB_stuck 0 c7StuckState (byte4 31) 31
    (computeBucket c5State (byte4 31)) Cursor.head
    (Slab.mk ((List.range 31).map some) none) hr hfk hfe hn hcap
  refine ⟨funext fun fuel => ?_, funext fun fuel => ?_⟩
  · unfold insertOneBWith
    rw [halloc]
    show insertLoopB 0 c7StuckState (byte4 31) 31
        (computeBucket c5State (byte4 31)) Cursor.head (fuel + 1)
      = insertLoopB 0 c7StuckState (byte4 31) 31
        (computeBucket c5State (byte4 31)) Cursor.head fuel
    rw [hstuck (fuel + 1), hstuck fuel]
  · unfold insertOneBWith
    rw [halloc]
    show insertLoopB 0 c7StuckState (byte4 31) 31
        (computeBucket c5State (byte4 31)) Cursor.head fuel
      = (c7StuckState, none, false)
    exact hstuck fuel

theorem c7_alloc_exhaustion_witness :
    (insertBatch (freshTable 1 1 4 4) c7Pairs).2.length = c7Pairs.length ∧
    (insertBatch (freshTable 1 1 4 4) c7Pairs).2[1]? = some (none, false) ∧
    (insertBatch (freshTable 1 1 4 4) (c7Pairs.take (1 + 1))).1
      = (insertBatch (freshTable 1 1 4 4) (c7Pairs.take 1)).1 ∧
    (∀ j kj vj, c7Pairs[j]? = some (kj, vj) →
      (insertBatch (freshTable 1 1 4 4) c7Pairs).2[j]?
        = some (insertOne
            (insertBatch (freshTable 1 1 4 4) (c7Pairs.take j)).1 kj vj).2) :=
  c7_alloc_exhaustion (freshTable 1 1 4 4) c7Pairs 1 (byte4 1) (byte4 6)
    (by decide) (by decide)

theorem c9_batch_complete_witness :
    ((insertBatch (freshTable 2 4 4 4) c1Pairs).2.length = c1Pairs.length ∧
    (searchBatch (freshTable 2 4 4 4) [[1, 0, 0, 0]]).length = 1 ∧
    (removeBatch (freshTable 2 4 4 4) [[1, 0, 0, 0]]).2.length = 1 ∧
    (∀ e, insertBatchExtra e (freshTable 2 4 4 4) c1Pairs
      = insertBatch (freshTable 2 4 4 4) c1Pairs) ∧
    (∀ e, searchBatchExtra e (freshTable 2 4 4 4) [[1, 0, 0, 0]]
      = searchBatch (freshTable 2 4 4 4) [[1, 0, 0, 0]]) ∧
    (∀ e, removeBatchExtra e (freshTable 2 4 4 4) [[1, 0, 0, 0]]
      = removeBatch (freshTable 2 4 4 4) [[1, 0, 0, 0]])) :=
  c9_batch_complete (freshTable 2 4 4 4)
    ⟨by decide, by decide, by decide, by decide, by decide, by decide,
      by decide⟩
    c1Pairs [[1, 0, 0, 0]] [[1, 0, 0, 0]] (by decide)

end SlabHash
